import Mathlib

/-! vgo: the version lifecycle over the install root

A shallow embedding of `main.go` of `abvarun226/vgo`: the four lifecycle
operations (`download`, `versionList`, `setVersion`, `deleteVersion`) and
`getActiveVersion`, over an explicit model of the one directory they work on,
the install root `/usr/local/go`.

The file system is modelled one level deep: the state is the listing of the
install root as `ioutil.ReadDir` returns it (entries in file-name order, each
with the kind `Lstat` reports), plus the set of paths outside the install root
that `os.Stat` resolves.  The operating-system calls of the source are modelled
with their POSIX behaviour on that listing; they fail for structural reasons
only (missing entry, entry of the wrong kind, entry already there), not for
permissions, devices or quotas.  A process exit (`os.Exit(1)`) after a printed
message is represented by the `Err` value naming the message, and every
operation returns, with its result, the file system it leaves and the calls it
issued.

The definitions come first (constants, library functions, the file-system
model, the functions of `main.go`, the example states, the step relation), then
the lemmas, then one theorem per claim.
-/

namespace Vgo

/-! ## Constants of `main.go` -/

def godir : String := "/usr/local/go"

def goSymLink : String := "/usr/local/go/active"

def activeDir : String := "active"

def availablePlatforms : List String := ["darwin", "linux", "freebsd"]

def availableArch : List String := ["amd64", "arm64", "386", "armv6l", "ppc64le", "s390x"]

/-! ## Library string functions -/

/-- Go's `strings.HasPrefix s p`. -/
def hasPrefix (s p : String) : Bool := p.data.isPrefixOf s.data

/-- Go's `strings.TrimPrefix s p`: `s` without the leading `p`, or `s` itself
when it does not start with `p`. -/
def trimPrefix (s p : String) : String :=
  if hasPrefix s p then ⟨s.data.drop p.data.length⟩ else s

/-- The first loop of `filepath.Base`: trailing slashes are dropped. -/
def stripTrailingSlashes (cs : List Char) : List Char :=
  (cs.reverse.dropWhile (fun c => c == '/')).reverse

/-- The second loop of `filepath.Base`: what follows the last slash. -/
def lastElement (cs : List Char) : List Char :=
  (cs.reverse.takeWhile (fun c => c != '/')).reverse

/-- Go's `filepath.Base` on a Unix path. -/
def filepathBase (path : String) : String :=
  if path.data = [] then "."
  else
    let p := lastElement (stripTrailingSlashes path.data)
    if p = [] then "/" else ⟨p⟩

/-- The `fmt.Sprintf(gosourceURL, version, platform, arch)` of `download`, with
`gosourceURL = "https://go.dev/dl/go%s.%s-%s.tar.gz"`. -/
def gosourceURL (version platform arch : String) : String :=
  "https://go.dev/dl/go" ++ version ++ "." ++ platform ++ "-" ++ arch ++ ".tar.gz"

/-! ## The file-system model -/

/-- What `Lstat` finds at a path: a regular file, a directory (with the names
found beneath it), or a symbolic link (with its target). -/
inductive Node where
  | file : Node
  | dir (content : List String) : Node
  | symlink (target : String) : Node
  deriving DecidableEq, Repr

/-- The `IsDir()` of a `FileInfo` that `ReadDir` (an `Lstat`) returns. -/
def Node.isDir : Node → Bool
  | .dir _ => true
  | _ => false

/-- One entry of the install root: `Name()` and the node behind it. -/
structure Entry where
  name : String
  node : Node
  deriving DecidableEq, Repr

/-- The state the operations share.  `root` is the listing of the install root
(`none` when `/usr/local/go` is missing or not a directory); `outside` holds
the paths that are not immediate children of the install root and that
`os.Stat` resolves. -/
structure FS where
  root : Option (List Entry)
  outside : List String
  deriving DecidableEq, Repr

/-- The immediate child of the install root that an absolute path names:
`/usr/local/go/<name>` with `<name>` a single path component.  Any other path
(one below a subdirectory, or elsewhere on the disk) lies outside the modelled
directory. -/
def childName (path : String) : Option String :=
  if hasPrefix path (godir ++ "/") then
    let n := trimPrefix path (godir ++ "/")
    if n.data = [] ∨ '/' ∈ n.data ∨ n = "." ∨ n = ".." then none else some n
  else none

/-- The node of the entry called `name`, if the install root has one. -/
def lookupIn (es : List Entry) (name : String) : Option Node :=
  (es.find? (fun e => e.name = name)).map Entry.node

/-- The node at child `name` of the install root. -/
def FS.lookup (s : FS) (name : String) : Option Node :=
  match s.root with
  | none => none
  | some es => lookupIn es name

/-- The listing without the entry called `name`. -/
def removeEntry (es : List Entry) (name : String) : List Entry :=
  es.filter (fun e => e.name ≠ name)

/-- The order in which `ReadDir` sorts names: byte-wise, a proper prefix first. -/
def nameLt : List Char → List Char → Bool
  | _, [] => false
  | [], _ :: _ => true
  | a :: as, b :: bs => a.toNat < b.toNat || (a.toNat == b.toNat && nameLt as bs)

/-- A new entry put at its place in the file-name order of the listing. -/
def insertEntry (e : Entry) : List Entry → List Entry
  | [] => [e]
  | x :: xs => if nameLt e.name.data x.name.data then e :: x :: xs else x :: insertEntry e xs

/-- The system calls an operation issues, in order. -/
inductive Call where
  | readDir (path : String)
  | readlink (path : String)
  | remove (path : String)
  | removeAll (path : String)
  | stat (path : String)
  | symlink (oldname newname : String)
  | httpGet (url : String)
  | extractGz (path : String)
  | rename (oldpath newpath : String)
  | exec (cmd : String)
  deriving DecidableEq, Repr

/-- The messages of `main.go`, one per `fmt.Errorf` or print-and-exit site. -/
inductive Err where
  | failedToReadLink
  | unableToListVersions
  | activeVersionNotice
  | versionNotFound
  | failedToDeleteDirectory
  | failedToSetVersion
  | unknownGoVersion
  | goPathNotFound
  | failedToSymlink
  | failedToExecGoVersion
  | unsupportedPlatform
  | unsupportedPlatformOrArch
  | failedToDownloadVersion
  | versionAlreadyExists
  | failedToGetTarball
  | failedToExtract
  deriving DecidableEq, Repr

/-- The two messages with which `download` rejects a platform/arch pair. -/
def Err.isUnsupportedTarget : Err → Bool
  | .unsupportedPlatform => true
  | .unsupportedPlatformOrArch => true
  | _ => false

deriving instance DecidableEq for Except

/-- What one operation leaves behind: its result, the file system and the
calls it issued. -/
structure Outcome where
  result : Except Err Unit
  fs : FS
  calls : List Call
  deriving DecidableEq

/-- What lies outside the program: the HTTP client, the archive decoder, the
random staging name and the `go` binary found on `PATH`.  `httpGet` gives the
body read from the response, or `none` on a transport error; `extractGz` gives
`none` when decoding fails, and otherwise the node the archive leaves at
`<staging>/go`, if any (the decoder writes below the staging path only). -/
structure Env where
  httpGet : String → Option (List Nat)
  extractGz : List Nat → Option (Option Node)
  randString : String
  goVersion : FS → Option String

/-! ## Operating-system calls on the model -/

/-- The call `ioutil.ReadDir(path)`: the listing of the install root. -/
def ioutilReadDir (s : FS) (path : String) : Option (List Entry) :=
  if path = godir then s.root else none

/-- The call `os.Readlink(path)`: the target, when `path` is a symbolic link. -/
def osReadlink (s : FS) (path : String) : Option String :=
  match childName path with
  | none => none
  | some n =>
    match s.lookup n with
    | some (.symlink t) => some t
    | _ => none

/-- The call `os.Remove(path)`: unlinks a file or link, removes an empty
directory; an error (`none`) when nothing is there or the directory has
content. -/
def osRemove (s : FS) (path : String) : Option FS :=
  match childName path, s.root with
  | some n, some es =>
    match lookupIn es n with
    | none => none
    | some (.dir (_ :: _)) => none
    | some _ => some { s with root := some (removeEntry es n) }
  | _, _ => none

/-- The call `os.RemoveAll(path)`: removes whatever is at `path`, and succeeds
when nothing is.  A path outside the modelled directory leaves the listing as
it is. -/
def osRemoveAll (s : FS) (path : String) : Option FS :=
  match childName path, s.root with
  | some n, some es => some { s with root := some (removeEntry es n) }
  | _, _ => some s

/-- The path a link target denotes for a link that lives in the install root. -/
def linkTarget (t : String) : String :=
  if hasPrefix t "/" then t else godir ++ "/" ++ t

/-- The call `os.Stat(path)` succeeding: the path resolves, following at most
`fuel` symbolic links (the kernel gives up with `ELOOP`). -/
def statOk (s : FS) : Nat → String → Bool
  | 0, path =>
    match childName path with
    | none => s.outside.contains path
    | some n =>
      match s.lookup n with
      | none => false
      | some (.symlink _) => false
      | some _ => true
  | k + 1, path =>
    match childName path with
    | none => s.outside.contains path
    | some n =>
      match s.lookup n with
      | none => false
      | some (.symlink t) => statOk s k (linkTarget t)
      | some _ => true

/-- The call `os.Symlink(oldname, newname)`: fails when `newname` exists. -/
def osSymlink (s : FS) (oldname newname : String) : Option FS :=
  match childName newname, s.root with
  | some n, some es =>
    match lookupIn es n with
    | none => some { s with root := some (insertEntry ⟨n, .symlink oldname⟩ es) }
    | some _ => none
  | _, _ => none

/-- The call `os.Rename(<staging>/go, newpath)`, where `staged` is what the
archive left at `<staging>/go`.  Go refuses a target that is a directory; the
kernel refuses to put a directory over a non-directory.  A target outside the
modelled directory (a version with a `/` in it) is not represented: the listing
is left as it is, and the statements about `download` that depend on the rename
take the version to be a single path component. -/
def osRename (s : FS) (staged : Option Node) (newpath : String) : Option FS :=
  match staged, childName newpath, s.root with
  | some src, some n, some es =>
    match lookupIn es n with
    | none => some { s with root := some (insertEntry ⟨n, src⟩ es) }
    | some (.dir _) => none
    | some _ =>
      if src.isDir then none
      else some { s with root := some (insertEntry ⟨n, src⟩ (removeEntry es n)) }
  | _, _, _ => none

/-! ## The functions of `main.go` -/

/-- The function `searchStrings` of `main.go`. -/
def searchStrings : List String → String → Bool
  | [], _ => false
  | h :: hay, needle => if h = needle then true else searchStrings hay needle

/-- The function `pathExists` of `main.go`. -/
def pathExists (s : FS) (path : String) : Bool := statOk s 40 path

/-- The loop of `versionList`: `versions` grows by one trimmed name per entry
that is a directory and is not called `active`. -/
def versionLoop : List Entry → List String → List String
  | [], versions => versions
  | file :: rest, versions =>
    if file.node.isDir && file.name != activeDir then
      versionLoop rest (versions ++ [trimPrefix file.name "go"])
    else versionLoop rest versions

/-- The function `versionList` of `main.go`. -/
def versionList (s : FS) : Except Err (List String) :=
  match ioutilReadDir s godir with
  | none => .error .unableToListVersions
  | some fileInfo => .ok (versionLoop fileInfo [])

/-- The function `getActiveVersion` of `main.go`. -/
def getActiveVersion (s : FS) : Except Err String :=
  match osReadlink s goSymLink with
  | none => .error .failedToReadLink
  | some name => .ok (trimPrefix (filepathBase name) "go")

/-- The function `deleteVersion` of `main.go`.  Both ignored errors are kept:
a failed `getActiveVersion` leaves `activeVersion` the empty string, a failed
`versionList` leaves `versions` empty. -/
def deleteVersion (s : FS) (version : String) : Outcome :=
  let activeVersion := match getActiveVersion s with
    | .ok a => a
    | .error _ => ""
  if activeVersion = version then
    ⟨.error .activeVersionNotice, s, [.readlink goSymLink]⟩
  else
    let versions := match versionList s with
      | .ok vs => vs
      | .error _ => []
    let found := versions.foldl (fun found v => if v = version then true else found) false
    if !found then
      ⟨.error .versionNotFound, s, [.readlink goSymLink, .readDir godir]⟩
    else
      match osRemoveAll s (godir ++ "/go" ++ version) with
      | none =>
        ⟨.error .failedToDeleteDirectory, s,
          [.readlink goSymLink, .readDir godir, .removeAll (godir ++ "/go" ++ version)]⟩
      | some s1 =>
        ⟨.ok (), s1,
          [.readlink goSymLink, .readDir godir, .removeAll (godir ++ "/go" ++ version)]⟩

/-- The function `setVersion` of `main.go`. -/
def setVersion (env : Env) (s : FS) (version : String) : Outcome :=
  match versionList s with
  | .error _ => ⟨.error .failedToSetVersion, s, [.readDir godir]⟩
  | .ok versions =>
    if !searchStrings versions version then
      ⟨.error .unknownGoVersion, s, [.readDir godir]⟩
    else
      let s1 := (osRemove s goSymLink).getD s
      let gopath := godir ++ "/go" ++ version
      if !pathExists s1 gopath then
        ⟨.error .goPathNotFound, s1, [.readDir godir, .remove goSymLink, .stat gopath]⟩
      else
        match osSymlink s1 gopath goSymLink with
        | none =>
          ⟨.error .failedToSymlink, s1,
            [.readDir godir, .remove goSymLink, .stat gopath, .symlink gopath goSymLink]⟩
        | some s2 =>
          match env.goVersion s2 with
          | none =>
            ⟨.error .failedToExecGoVersion, s2,
              [.readDir godir, .remove goSymLink, .stat gopath, .symlink gopath goSymLink,
                .exec "go version"]⟩
          | some _ =>
            ⟨.ok (), s2,
              [.readDir godir, .remove goSymLink, .stat gopath, .symlink gopath goSymLink,
                .exec "go version"]⟩

/-- The function `download` of `main.go`.  The results of `os.Rename` and of
the closing `os.Remove` are dropped, as in the source. -/
def download (env : Env) (s : FS) (version platform arch : String) : Outcome :=
  if platform = "windows" then
    ⟨.error .unsupportedPlatform, s, []⟩
  else if !searchStrings availablePlatforms platform || !searchStrings availableArch arch then
    ⟨.error .unsupportedPlatformOrArch, s, []⟩
  else
    match versionList s with
    | .error _ => ⟨.error .failedToDownloadVersion, s, [.readDir godir]⟩
    | .ok versions =>
      if searchStrings versions version then
        ⟨.error .versionAlreadyExists, s, [.readDir godir]⟩
      else
        let url := gosourceURL version platform arch
        match env.httpGet url with
        | none => ⟨.error .failedToGetTarball, s, [.readDir godir, .httpGet url]⟩
        | some data =>
          let path := "/tmp/" ++ "go-" ++ env.randString
          match env.extractGz data with
          | none =>
            ⟨.error .failedToExtract, s, [.readDir godir, .httpGet url, .extractGz path]⟩
          | some staged =>
            let s1 := (osRename s staged (godir ++ "/go" ++ version)).getD s
            ⟨.ok (), s1,
              [.readDir godir, .httpGet url, .extractGz path,
                .rename (path ++ "/go") (godir ++ "/go" ++ version), .remove path]⟩

/-- The versions a listing yields: the trimmed names of its directories other
than `active`, in the listing's order. -/
def versionsOf (es : List Entry) : List String :=
  (es.filter (fun e => e.node.isDir && e.name != activeDir)).map
    (fun e => trimPrefix e.name "go")

/-! ## Well-formed listings and example states -/

/-- What every directory listing satisfies: a name is a single path component
(it has no `/`), and no name occurs twice. -/
def ListingOK (es : List Entry) : Prop :=
  (∀ e ∈ es, '/' ∉ e.name.data) ∧ (es.map Entry.name).Nodup

/-- The install root, when it exists, has a well-formed listing. -/
def FS.WF (s : FS) : Prop :=
  ∀ es, s.root = some es → ListingOK es

/-- The link path holds a directory with content, which `os.Remove` refuses to
remove. -/
def FS.linkBlocked (s : FS) : Bool :=
  match s.lookup "active" with
  | some (.dir (_ :: _)) => true
  | _ => false

/-- An install root that exists and is empty. -/
def emptyRoot : FS := ⟨some [], []⟩

/-- Two installed versions, the first of them active. -/
def twoVersions : FS :=
  ⟨some [⟨"active", .symlink "/usr/local/go/go1.21.0"⟩,
         ⟨"go1.21.0", .dir ["bin/go"]⟩,
         ⟨"go1.22.0", .dir ["bin/go"]⟩], []⟩

/-- An install root that also holds a directory `bin`, as when a Go
distribution was unpacked into `/usr/local/go` itself. -/
def withBinDir : FS :=
  ⟨some [⟨"active", .symlink "/usr/local/go/go1.21.0"⟩,
         ⟨"bin", .dir ["go", "gofmt"]⟩,
         ⟨"go1.21.0", .dir ["bin/go"]⟩], []⟩

/-- An install root whose only entry is the directory `bin`. -/
def onlyBinDir : FS := ⟨some [⟨"bin", .dir ["go", "gofmt"]⟩], []⟩

/-- An install root whose only entry is a directory called `go`: the version
with the empty name, and no active link. -/
def onlyGoDir : FS := ⟨some [⟨"go", .dir ["bin/go"]⟩], []⟩

/-- An installed version next to a directory with content at the link path. -/
def blockedLink : FS :=
  ⟨some [⟨"active", .dir ["bin"]⟩, ⟨"go1.21.0", .dir ["bin/go"]⟩], []⟩

/-- An environment in which the fetch succeeds, the archive holds the
directory `go`, and the activated `go` binary runs. -/
def goodEnv : Env :=
  ⟨fun _ => some [31, 139], fun _ => some (some (.dir ["bin/go"])), "abcdefgh",
    fun _ => some "go version go1.21.0 darwin/arm64"⟩

/-- An environment whose fetch succeeds with an archive that holds no entry
`go` at its top level. -/
def noGoDirEnv : Env :=
  ⟨fun _ => some [31, 139], fun _ => some none, "abcdefgh", fun _ => none⟩

/-- An environment whose fetch fails. -/
def failingFetchEnv : Env :=
  ⟨fun _ => none, fun _ => none, "abcdefgh", fun _ => none⟩

/-- A directory `bin` (listed as version `bin`) next to a regular file `gobin`. -/
def binAndFile : FS := ⟨some [⟨"bin", .dir ["go"]⟩, ⟨"gobin", .file⟩], []⟩

/-! ## The lifecycle as a step relation -/

/-- The active link is absent, or it points to `<install root>/go<a>`, that is
a directory, and `a` is listed. -/
def ActiveLinkOK (s : FS) : Prop :=
  osReadlink s goSymLink = none ∨
    ∃ a c, osReadlink s goSymLink = some (godir ++ "/go" ++ a) ∧
      s.lookup ("go" ++ a) = some (.dir c) ∧
      ∃ vs, versionList s = .ok vs ∧ a ∈ vs

/-- Every directory of the listing other than `active` is named `go<version>`. -/
def GoNamedIn (es : List Entry) : Prop :=
  ∀ e ∈ es, e.node.isDir = true → e.name ≠ activeDir → hasPrefix e.name "go" = true

/-- Every directory of the install root other than `active` is named
`go<version>`. -/
def GoNamed (s : FS) : Prop :=
  ∀ es, s.root = some es → GoNamedIn es

/-- The install roots of the data model: a well-formed listing whose
directories are the versions' own. -/
def Conforming (s : FS) : Prop := s.WF ∧ GoNamed s

/-- One invocation of a lifecycle operation, with the environment it meets. -/
inductive Op where
  | download (env : Env) (version platform arch : String)
  | set (env : Env) (version : String)
  | delete (version : String)

/-- The operation run on a state. -/
def Op.run : Op → FS → Outcome
  | .download env version platform arch, s => Vgo.download env s version platform arch
  | .set env version, s => Vgo.setVersion env s version
  | .delete version, s => Vgo.deleteVersion s version

/-- The version handed to `download` is a single path component: it has no
`/`, so that `<install root>/go<version>` is a child of the install root. -/
def Op.versionOK : Op → Prop
  | .download _ version _ _ => '/' ∉ version.data
  | _ => True

/-- A sequence of invocations, each on the state the previous one left,
whatever its result. -/
def runAll : FS → List Op → FS
  | s, [] => s
  | s, op :: ops => runAll (op.run s).fs ops

/-- The scenario of the specification: install and activate `1.21.0`, try to
delete it, install and activate `1.22.0`, delete `1.21.0`. -/
def scenario : List Op :=
  [.download goodEnv "1.21.0" "darwin" "arm64", .set goodEnv "1.21.0", .delete "1.21.0",
    .download goodEnv "1.22.0" "darwin" "arm64", .set goodEnv "1.22.0", .delete "1.21.0"]

instance (es : List Entry) : Decidable (GoNamedIn es) := by
  unfold GoNamedIn
  infer_instance

instance (es : List Entry) : Decidable (ListingOK es) := by
  unfold ListingOK
  infer_instance

/-! ## Lemmas on names and paths -/

theorem data_go (v : String) : ("go" ++ v).data = 'g' :: 'o' :: v.data := by
  simp [String.data_append]

theorem trimPrefix_go (v : String) : trimPrefix ("go" ++ v) "go" = v := by
  simp [trimPrefix, hasPrefix, String.data_append]

theorem go_ne_active (v : String) : "go" ++ v ≠ activeDir := by
  intro h
  have := congrArg String.data h
  simp [String.data_append, activeDir] at this

theorem go_injective {v w : String} (h : "go" ++ v = "go" ++ w) : v = w := by
  have := congrArg String.data h
  simp [String.data_append] at this
  exact String.ext this

theorem childName_goSymLink : childName goSymLink = some "active" := by decide

theorem childName_go (v : String) (h : '/' ∉ v.data) :
    childName (godir ++ "/go" ++ v) = some ("go" ++ v) := by
  have hd : (godir ++ "/go" ++ v).data = (godir ++ "/").data ++ ("go" ++ v).data := by
    simp [String.data_append, godir]
  have hp : hasPrefix (godir ++ "/go" ++ v) (godir ++ "/") = true := by
    simp [hasPrefix, hd]
  have ht : trimPrefix (godir ++ "/go" ++ v) (godir ++ "/") = "go" ++ v := by
    rw [trimPrefix, if_pos hp, hd]
    apply String.ext
    exact List.drop_left _ _
  have h1 : ("go" ++ v).data ≠ [] := by simp [data_go]
  have h2 : '/' ∉ ("go" ++ v).data := by simp [data_go, h]
  have h3 : "go" ++ v ≠ "." := by
    intro e
    have := congrArg String.data e
    simp [data_go] at this
  have h4 : "go" ++ v ≠ ".." := by
    intro e
    have := congrArg String.data e
    simp [data_go] at this
  rw [childName, if_pos hp]
  simp only [ht]
  rw [if_neg]
  simp only [not_or]
  exact ⟨h1, h2, h3, h4⟩

theorem takeWhile_append_stop {α : Type} (p : α → Bool) (l1 l2 : List α) (a : α)
    (h1 : ∀ x ∈ l1, p x = true) (h2 : p a = false) :
    (l1 ++ a :: l2).takeWhile p = l1 := by
  induction l1 with
  | nil => simp [List.takeWhile, h2]
  | cons x xs ih =>
    have hx : p x = true := h1 x (List.mem_cons_self _ _)
    simp [List.takeWhile, hx]
    exact ih (fun y hy => h1 y (List.mem_cons_of_mem _ hy))

theorem stripTrailingSlashes_id (pre w : List Char) (hw : w ≠ []) (h : '/' ∉ w) :
    stripTrailingSlashes (pre ++ w) = pre ++ w := by
  unfold stripTrailingSlashes
  have hr : w.reverse ≠ [] := by simpa using hw
  obtain ⟨x, rest, hx⟩ := List.exists_cons_of_ne_nil hr
  have hxw : x ∈ w := by
    have : x ∈ w.reverse := by rw [hx]; exact List.mem_cons_self _ _
    simpa using this
  have hne : x ≠ '/' := fun e => h (e ▸ hxw)
  have hbeq : (x == '/') = false := by simpa using hne
  have hdrop : List.dropWhile (fun c => c == '/') (x :: (rest ++ pre.reverse))
      = x :: (rest ++ pre.reverse) := by
    simp [List.dropWhile, hbeq]
  rw [List.reverse_append, hx, List.cons_append, hdrop, ← List.cons_append, ← hx,
    ← List.reverse_append, List.reverse_reverse]

theorem lastElement_after_slash (pre w : List Char) (h : '/' ∉ w) :
    lastElement (pre ++ '/' :: w) = w := by
  unfold lastElement
  rw [List.reverse_append, List.reverse_cons, List.append_assoc]
  simp only [List.singleton_append]
  rw [takeWhile_append_stop]
  · simp
  · intro x hx
    have hxw : x ∈ w := by simpa using hx
    have hne : x ≠ '/' := fun e => h (e ▸ hxw)
    simpa using hne
  · simp

theorem filepathBase_go (v : String) (h : '/' ∉ v.data) :
    filepathBase (godir ++ "/go" ++ v) = "go" ++ v := by
  have hd : (godir ++ "/go" ++ v).data = godir.data ++ '/' :: ("go" ++ v).data := by
    simp [String.data_append, godir]
  have h1 : ("go" ++ v).data ≠ [] := by simp [data_go]
  have h2 : '/' ∉ ("go" ++ v).data := by simp [data_go, h]
  have hne : (godir ++ "/go" ++ v).data ≠ [] := by rw [hd]; simp
  rw [filepathBase, if_neg hne]
  simp only
  have hs : stripTrailingSlashes (godir ++ "/go" ++ v).data = godir.data ++ '/' :: ("go" ++ v).data := by
    rw [hd]
    have := stripTrailingSlashes_id (godir.data ++ ['/']) ("go" ++ v).data h1 h2
    simpa using this
  rw [hs, lastElement_after_slash _ _ h2, if_neg h1]

/-! ## The listing -/

theorem versionLoop_eq (es : List Entry) (acc : List String) :
    versionLoop es acc = acc ++ versionsOf es := by
  induction es generalizing acc with
  | nil => simp [versionLoop, versionsOf]
  | cons e es ih =>
    unfold versionLoop
    by_cases h : (e.node.isDir && e.name != activeDir) = true
    · rw [if_pos h, ih]
      simp [versionsOf, List.filter_cons, h]
    · rw [if_neg h, ih]
      simp [versionsOf, List.filter_cons, h]

theorem versionList_some (es : List Entry) (o : List String) :
    versionList ⟨some es, o⟩ = .ok (versionsOf es) := by
  simp [versionList, ioutilReadDir, versionLoop_eq]

theorem versionList_none (o : List String) :
    versionList ⟨none, o⟩ = .error .unableToListVersions := by
  simp [versionList, ioutilReadDir]

theorem versionList_ok_iff (s : FS) (vs : List String) :
    versionList s = .ok vs ↔ ∃ es, s.root = some es ∧ vs = versionsOf es := by
  obtain ⟨root, o⟩ := s
  cases root with
  | none => simp [versionList_none]
  | some es =>
    rw [versionList_some]
    constructor
    · intro h
      exact ⟨es, rfl, by injection h with h; exact h.symm⟩
    · rintro ⟨es', h1, h2⟩
      simp only [Option.some.injEq] at h1
      subst h1
      rw [h2]

theorem searchStrings_iff (hay : List String) (needle : String) :
    searchStrings hay needle = true ↔ needle ∈ hay := by
  induction hay with
  | nil => simp [searchStrings]
  | cons h hay ih =>
    unfold searchStrings
    by_cases e : h = needle
    · simp [e]
    · rw [if_neg e, ih]
      simp [Ne.symm e]

theorem found_iff (vs : List String) (version : String) (b : Bool) :
    vs.foldl (fun found v => if v = version then true else found) b = true ↔
      (b = true ∨ version ∈ vs) := by
  induction vs generalizing b with
  | nil => simp
  | cons v vs ih =>
    rw [List.foldl_cons, ih]
    by_cases e : v = version
    · simp [e]
    · simp [e, Ne.symm e]

theorem mem_versionsOf (es : List Entry) (v : String) :
    v ∈ versionsOf es ↔
      ∃ e ∈ es, e.node.isDir = true ∧ e.name ≠ activeDir ∧ trimPrefix e.name "go" = v := by
  simp [versionsOf, and_assoc]

/-! ## Lookup, removal and insertion in a listing -/

theorem lookupIn_some_mem {es : List Entry} {n : String} {node : Node}
    (h : lookupIn es n = some node) : ∃ e ∈ es, e.name = n ∧ e.node = node := by
  unfold lookupIn at h
  cases hf : es.find? (fun e => decide (e.name = n)) with
  | none => simp [hf] at h
  | some e =>
    rw [hf] at h
    simp only [Option.map_some', Option.some.injEq] at h
    have h1 := List.find?_some hf
    exact ⟨e, List.mem_of_find?_eq_some hf, by simpa using h1, h⟩

theorem lookupIn_none_iff (es : List Entry) (n : String) :
    lookupIn es n = none ↔ ∀ e ∈ es, e.name ≠ n := by
  simp [lookupIn, List.find?_eq_none]

theorem lookupIn_cons (e : Entry) (es : List Entry) (n : String) :
    lookupIn (e :: es) n = if e.name = n then some e.node else lookupIn es n := by
  by_cases h : e.name = n <;> simp [lookupIn, List.find?_cons, h]

theorem lookupIn_removeEntry (es : List Entry) (n m : String) :
    lookupIn (removeEntry es n) m = if m = n then none else lookupIn es m := by
  induction es with
  | nil => simp [removeEntry, lookupIn]
  | cons e es ih =>
    by_cases hmn : m = n
    · rw [if_pos hmn, lookupIn_none_iff]
      intro x hx
      have : x.name ≠ n := by simpa [removeEntry] using (List.mem_filter.1 hx).2
      rw [hmn]; exact this
    · rw [if_neg hmn] at ih ⊢
      by_cases hen : e.name = n
      · have : removeEntry (e :: es) n = removeEntry es n := by
          simp [removeEntry, List.filter_cons, hen]
        rw [this, ih, lookupIn_cons, if_neg]
        rw [hen]; exact fun c => hmn c.symm
      · have : removeEntry (e :: es) n = e :: removeEntry es n := by
          simp [removeEntry, List.filter_cons, hen]
        rw [this, lookupIn_cons, lookupIn_cons, ih]

theorem mem_insertEntry (e x : Entry) (es : List Entry) :
    x ∈ insertEntry e es ↔ x = e ∨ x ∈ es := by
  induction es with
  | nil => simp [insertEntry]
  | cons y ys ih =>
    unfold insertEntry
    split
    · simp
    · simp only [List.mem_cons, ih]
      tauto

theorem lookupIn_insertEntry (e : Entry) (es : List Entry) (m : String)
    (h : lookupIn es e.name = none) :
    lookupIn (insertEntry e es) m = if m = e.name then some e.node else lookupIn es m := by
  induction es with
  | nil =>
    by_cases hm : m = e.name
    · simp [insertEntry, lookupIn_cons, hm]
    · simp [insertEntry, lookupIn_cons, hm, Ne.symm hm, lookupIn]
  | cons y ys ih =>
    rw [lookupIn_cons] at h
    have hy : y.name ≠ e.name := by
      intro c
      rw [if_pos c] at h
      exact Option.noConfusion h
    rw [if_neg hy] at h
    unfold insertEntry
    split
    · by_cases hm : m = e.name
      · rw [if_pos hm, lookupIn_cons, if_pos hm.symm]
      · rw [if_neg hm, lookupIn_cons, if_neg (Ne.symm hm)]
    · rw [lookupIn_cons, ih h, lookupIn_cons]
      by_cases hm : m = e.name
      · subst hm
        simp [hy]
      · simp [hm]

theorem versionsOf_insertEntry_of_not_dir (e : Entry) (es : List Entry)
    (h : e.node.isDir = false) : versionsOf (insertEntry e es) = versionsOf es := by
  induction es with
  | nil => simp [insertEntry, versionsOf, h]
  | cons y ys ih =>
    unfold insertEntry
    split
    · simp [versionsOf, List.filter_cons, h]
    · have hc : ∀ l, versionsOf (y :: l) =
          (if (y.node.isDir && y.name != activeDir) = true then [trimPrefix y.name "go"] else [])
            ++ versionsOf l := by
        intro l
        by_cases hy : (y.node.isDir && y.name != activeDir) = true <;>
          simp [versionsOf, List.filter_cons, hy]
      rw [hc, hc, ih]

theorem versionsOf_removeEntry_active (es : List Entry) :
    versionsOf (removeEntry es activeDir) = versionsOf es := by
  simp only [versionsOf, removeEntry, List.filter_filter]
  congr 2
  funext e
  by_cases h : e.name = activeDir <;> simp [h]

theorem mem_versionsOf_removeEntry (es : List Entry) (n w : String) :
    w ∈ versionsOf (removeEntry es n) ↔
      ∃ e ∈ es, e.name ≠ n ∧ e.node.isDir = true ∧ e.name ≠ activeDir ∧
        trimPrefix e.name "go" = w := by
  rw [mem_versionsOf]
  constructor
  · rintro ⟨e, he, h1, h2, h3⟩
    have := List.mem_filter.1 he
    exact ⟨e, this.1, by simpa using this.2, h1, h2, h3⟩
  · rintro ⟨e, he, h0, h1, h2, h3⟩
    exact ⟨e, List.mem_filter.2 ⟨he, by simpa using h0⟩, h1, h2, h3⟩

theorem hasPrefix_go_eq (n : String) (h : hasPrefix n "go" = true) :
    n = "go" ++ trimPrefix n "go" := by
  apply String.ext
  rw [data_go, trimPrefix, if_pos h]
  unfold hasPrefix at h
  have hd : "go".data = ['g', 'o'] := by decide
  rw [hd] at h ⊢
  cases hn : n.data with
  | nil => rw [hn] at h; simp [List.isPrefixOf] at h
  | cons a t =>
    cases t with
    | nil => rw [hn] at h; simp [List.isPrefixOf] at h
    | cons b rest =>
      rw [hn] at h
      simp [List.isPrefixOf] at h
      simp [← h.1, ← h.2]

theorem trimPrefix_not_hasPrefix (n p : String) (h : hasPrefix n p = false) :
    trimPrefix n p = n := by
  simp [trimPrefix, h]

/-- A directory at `go<v>` is listed as `v`. -/
theorem mem_versionsOf_of_dir (es : List Entry) (v : String) (c : List String)
    (h : lookupIn es ("go" ++ v) = some (.dir c)) : v ∈ versionsOf es := by
  obtain ⟨e, he, hn, hd⟩ := lookupIn_some_mem h
  rw [mem_versionsOf]
  refine ⟨e, he, by simp [hd, Node.isDir], ?_, ?_⟩
  · rw [hn]; exact go_ne_active v
  · rw [hn]; exact trimPrefix_go v

theorem lookupIn_of_mem_nodup {es : List Entry} (hnd : (es.map Entry.name).Nodup)
    {e : Entry} (he : e ∈ es) : lookupIn es e.name = some e.node := by
  induction es with
  | nil => simp at he
  | cons y ys ih =>
    rw [List.map_cons, List.nodup_cons] at hnd
    rw [lookupIn_cons]
    rcases List.mem_cons.1 he with h | h
    · rw [h, if_pos rfl]
    · have hne : y.name ≠ e.name := by
        intro c
        exact hnd.1 (c ▸ List.mem_map_of_mem Entry.name h)
      rw [if_neg hne]
      exact ih hnd.2 h

theorem noSlash_of_lookup {s : FS} (hwf : s.WF) {v : String} {node : Node}
    (h : s.lookup ("go" ++ v) = some node) : '/' ∉ v.data := by
  obtain ⟨root, o⟩ := s
  cases root with
  | none => simp [FS.lookup] at h
  | some es =>
    obtain ⟨e, he, hn, _⟩ := lookupIn_some_mem (show lookupIn es ("go" ++ v) = some node from h)
    have := (hwf es rfl).1 e he
    rw [hn, data_go] at this
    intro c
    exact this (by simp [c])

theorem osRemoveAll_go (es : List Entry) (o : List String) (v : String)
    (h : '/' ∉ v.data) :
    osRemoveAll ⟨some es, o⟩ (godir ++ "/go" ++ v) =
      some ⟨some (removeEntry es ("go" ++ v)), o⟩ := by
  simp [osRemoveAll, childName_go v h]

theorem osReadlink_goSymLink (s : FS) :
    osReadlink s goSymLink =
      match s.lookup "active" with
      | some (.symlink t) => some t
      | _ => none := by
  simp [osReadlink, childName_goSymLink]

/-- The outcome of `deleteVersion` on a listed version that the active-version
test lets through. -/
theorem deleteVersion_removes (es : List Entry) (o : List String) (v : String)
    (hslash : '/' ∉ v.data) (hv : v ∈ versionsOf es)
    (hact : (match getActiveVersion ⟨some es, o⟩ with
      | .ok a => a
      | .error _ => "") ≠ v) :
    deleteVersion ⟨some es, o⟩ v =
      ⟨.ok (), ⟨some (removeEntry es ("go" ++ v)), o⟩,
        [.readlink goSymLink, .readDir godir, .removeAll (godir ++ "/go" ++ v)]⟩ := by
  have hf : (versionsOf es).foldl (fun found x => if x = v then true else found) false
      = true := (found_iff _ _ _).2 (Or.inr hv)
  unfold deleteVersion
  simp only [if_neg hact, versionList_some, hf, Bool.not_true, Bool.false_eq_true, if_false,
    osRemoveAll_go es o v hslash]

theorem wf_of_listing (es : List Entry) (o : List String) (h : ListingOK es) :
    FS.WF ⟨some es, o⟩ := by
  intro es' h'
  simp only [Option.some.injEq] at h'
  subst h'
  exact h

/-! ## Resolving paths -/

theorem statOk_dir (s : FS) (fuel : Nat) (path n : String) (c : List String)
    (hc : childName path = some n) (hl : s.lookup n = some (.dir c)) :
    statOk s fuel path = true := by
  cases fuel <;> simp [statOk, hc, hl]

/-- Taking entries away makes no path resolve that did not resolve before. -/
theorem statOk_mono (s s1 : FS) (hout : s1.outside = s.outside)
    (hsub : ∀ n node, s1.lookup n = some node → s.lookup n = some node) :
    ∀ (fuel : Nat) (path : String), statOk s1 fuel path = true → statOk s fuel path = true := by
  intro fuel
  induction fuel with
  | zero =>
    intro path h
    rw [statOk] at h ⊢
    cases hc : childName path with
    | none => rw [hc] at h; simpa [hout] using h
    | some n =>
      rw [hc] at h
      simp only at h ⊢
      cases h1 : s1.lookup n with
      | none => rw [h1] at h; simp at h
      | some node =>
        rw [hsub n node h1]
        rw [h1] at h
        exact h
  | succ k ih =>
    intro path h
    rw [statOk] at h ⊢
    cases hc : childName path with
    | none => rw [hc] at h; simpa [hout] using h
    | some n =>
      rw [hc] at h
      simp only at h ⊢
      cases h1 : s1.lookup n with
      | none => rw [h1] at h; simp at h
      | some node =>
        rw [hsub n node h1]
        rw [h1] at h
        cases node with
        | file => rfl
        | dir c => rfl
        | symlink t => exact ih _ h

/-! ## The steps of `setVersion` -/

theorem osRemove_goSymLink (es : List Entry) (o : List String) :
    osRemove ⟨some es, o⟩ goSymLink =
      match lookupIn es "active" with
      | none => none
      | some (.dir (_ :: _)) => none
      | some _ => some ⟨some (removeEntry es "active"), o⟩ := by
  simp [osRemove, childName_goSymLink]

/-- What `os.Remove(goSymLink)` of `setVersion` leaves, its error dropped. -/
theorem after_osRemove (es : List Entry) (o : List String) :
    ∃ es1, (osRemove ⟨some es, o⟩ goSymLink).getD ⟨some es, o⟩ = ⟨some es1, o⟩
      ∧ (es1 = es ∨ es1 = removeEntry es "active")
      ∧ ((∀ x xs, lookupIn es "active" ≠ some (.dir (x :: xs))) →
          lookupIn es1 "active" = none)
      ∧ (∀ t, lookupIn es "active" = some (.symlink t) → es1 = removeEntry es "active") := by
  rw [osRemove_goSymLink]
  cases h : lookupIn es "active" with
  | none => exact ⟨es, rfl, Or.inl rfl, fun _ => h, fun t ht => by simp at ht⟩
  | some node =>
    cases node with
    | file =>
      exact ⟨removeEntry es "active", rfl, Or.inr rfl,
        fun _ => by rw [lookupIn_removeEntry, if_pos rfl], fun _ _ => rfl⟩
    | symlink t =>
      exact ⟨removeEntry es "active", rfl, Or.inr rfl,
        fun _ => by rw [lookupIn_removeEntry, if_pos rfl], fun _ _ => rfl⟩
    | dir c =>
      cases c with
      | nil =>
        exact ⟨removeEntry es "active", rfl, Or.inr rfl,
          fun _ => by rw [lookupIn_removeEntry, if_pos rfl], fun _ _ => rfl⟩
      | cons x xs =>
        exact ⟨es, rfl, Or.inl rfl, fun hh => absurd rfl (hh x xs),
          fun t ht => by simp at ht⟩

theorem lookupIn_after_osRemove {es es1 : List Entry}
    (h : es1 = es ∨ es1 = removeEntry es "active") (n : String) (hn : n ≠ "active") :
    lookupIn es1 n = lookupIn es n := by
  rcases h with h | h
  · rw [h]
  · rw [h, lookupIn_removeEntry, if_neg hn]

theorem versionsOf_after_osRemove {es es1 : List Entry}
    (h : es1 = es ∨ es1 = removeEntry es "active") : versionsOf es1 = versionsOf es := by
  rcases h with h | h
  · rw [h]
  · rw [h]; exact versionsOf_removeEntry_active es

theorem pathExists_go_of_dir (es : List Entry) (o : List String) (v : String)
    (c : List String) (hslash : '/' ∉ v.data)
    (h : lookupIn es ("go" ++ v) = some (.dir c)) :
    pathExists ⟨some es, o⟩ (godir ++ "/go" ++ v) = true :=
  statOk_dir _ _ _ _ c (childName_go v hslash) h

theorem osSymlink_goSymLink (es : List Entry) (o : List String) (target : String)
    (h : lookupIn es "active" = none) :
    osSymlink ⟨some es, o⟩ target goSymLink =
      some ⟨some (insertEntry ⟨"active", .symlink target⟩ es), o⟩ := by
  simp [osSymlink, childName_goSymLink, h]

/-- The function `setVersion` on a version that the listing does not have. -/
theorem setVersion_unlisted (env : Env) (s : FS) (v : String) (vs : List String)
    (hlist : versionList s = .ok vs) (hv : v ∉ vs) :
    setVersion env s v = ⟨.error .unknownGoVersion, s, [.readDir godir]⟩ := by
  have h : searchStrings vs v = false := by
    rw [Bool.eq_false_iff]
    intro h
    exact hv ((searchStrings_iff _ _).1 h)
  simp [setVersion, hlist, h]

/-- The function `setVersion` once the version is found in the listing. -/
theorem setVersion_listed (env : Env) (es : List Entry) (o : List String) (v : String)
    (hv : v ∈ versionsOf es) :
    setVersion env ⟨some es, o⟩ v =
      if !pathExists ((osRemove ⟨some es, o⟩ goSymLink).getD ⟨some es, o⟩)
          (godir ++ "/go" ++ v) then
        ⟨.error .goPathNotFound, (osRemove ⟨some es, o⟩ goSymLink).getD ⟨some es, o⟩,
          [.readDir godir, .remove goSymLink, .stat (godir ++ "/go" ++ v)]⟩
      else
        match osSymlink ((osRemove ⟨some es, o⟩ goSymLink).getD ⟨some es, o⟩)
            (godir ++ "/go" ++ v) goSymLink with
        | none =>
          ⟨.error .failedToSymlink, (osRemove ⟨some es, o⟩ goSymLink).getD ⟨some es, o⟩,
            [.readDir godir, .remove goSymLink, .stat (godir ++ "/go" ++ v),
              .symlink (godir ++ "/go" ++ v) goSymLink]⟩
        | some s2 =>
          match env.goVersion s2 with
          | none =>
            ⟨.error .failedToExecGoVersion, s2,
              [.readDir godir, .remove goSymLink, .stat (godir ++ "/go" ++ v),
                .symlink (godir ++ "/go" ++ v) goSymLink, .exec "go version"]⟩
          | some _ =>
            ⟨.ok (), s2,
              [.readDir godir, .remove goSymLink, .stat (godir ++ "/go" ++ v),
                .symlink (godir ++ "/go" ++ v) goSymLink, .exec "go version"]⟩ := by
  have hs : searchStrings (versionsOf es) v = true := (searchStrings_iff _ _).2 hv
  unfold setVersion
  simp only [versionList_some, hs, Bool.not_true, Bool.false_eq_true, if_false]

/-- With the directory `go<v>` in place and the link path free or removable,
`setVersion v` gets as far as creating the link. -/
theorem setVersion_links (env : Env) (es : List Entry) (o : List String) (v : String)
    (c : List String) (hslash : '/' ∉ v.data)
    (hdir : lookupIn es ("go" ++ v) = some (.dir c))
    (hrem : ∀ x xs, lookupIn es "active" ≠ some (.dir (x :: xs))) :
    ∃ es1, (es1 = es ∨ es1 = removeEntry es "active") ∧ lookupIn es1 "active" = none
      ∧ (setVersion env ⟨some es, o⟩ v).fs =
          ⟨some (insertEntry ⟨"active", .symlink (godir ++ "/go" ++ v)⟩ es1), o⟩
      ∧ ((setVersion env ⟨some es, o⟩ v).result = .ok () ∨
          (setVersion env ⟨some es, o⟩ v).result = .error .failedToExecGoVersion) := by
  obtain ⟨es1, h1, h2, h3, _⟩ := after_osRemove es o
  have hnone := h3 hrem
  have hdir1 : lookupIn es1 ("go" ++ v) = some (.dir c) := by
    rw [lookupIn_after_osRemove h2 _ (go_ne_active v)]; exact hdir
  refine ⟨es1, h2, hnone, ?_⟩
  rw [setVersion_listed env es o v (mem_versionsOf_of_dir es v c hdir), h1,
    pathExists_go_of_dir es1 o v c hslash hdir1, osSymlink_goSymLink es1 o _ hnone]
  simp only [Bool.not_true, Bool.false_eq_true, if_false]
  cases env.goVersion ⟨some (insertEntry ⟨"active", .symlink (godir ++ "/go" ++ v)⟩ es1), o⟩ with
  | none => exact ⟨rfl, Or.inr rfl⟩
  | some out => exact ⟨rfl, Or.inl rfl⟩

theorem getActiveVersion_of_link (es : List Entry) (o : List String) (v : String)
    (hslash : '/' ∉ v.data)
    (h : lookupIn es "active" = some (.symlink (godir ++ "/go" ++ v))) :
    getActiveVersion ⟨some es, o⟩ = .ok v := by
  have : osReadlink ⟨some es, o⟩ goSymLink = some (godir ++ "/go" ++ v) := by
    rw [osReadlink_goSymLink]
    show (match lookupIn es "active" with
      | some (.symlink t) => some t
      | _ => none) = _
    rw [h]
  rw [getActiveVersion, this]
  simp only [filepathBase_go v hslash, trimPrefix_go]

/-! ## Well-formed listings under removal and insertion -/

theorem insertEntry_perm (e : Entry) (es : List Entry) :
    (insertEntry e es).Perm (e :: es) := by
  induction es with
  | nil => simp [insertEntry]
  | cons y ys ih =>
    unfold insertEntry
    split
    · exact List.Perm.refl _
    · exact (List.Perm.cons y ih).trans (List.Perm.swap e y ys)

theorem listingOK_removeEntry {es : List Entry} (h : ListingOK es) (n : String) :
    ListingOK (removeEntry es n) := by
  refine ⟨fun e he => h.1 e (List.mem_filter.1 he).1, ?_⟩
  exact List.Nodup.sublist (List.Sublist.map _ (List.filter_sublist es)) h.2

theorem listingOK_insertEntry {es : List Entry} (h : ListingOK es) (e : Entry)
    (hslash : '/' ∉ e.name.data) (hnew : lookupIn es e.name = none) :
    ListingOK (insertEntry e es) := by
  refine ⟨fun x hx => ?_, ?_⟩
  · rcases (mem_insertEntry e x es).1 hx with hx | hx
    · rw [hx]; exact hslash
    · exact h.1 x hx
  · have hp := (insertEntry_perm e es).map Entry.name
    rw [hp.nodup_iff, List.map_cons, List.nodup_cons]
    refine ⟨?_, h.2⟩
    intro hmem
    obtain ⟨x, hx, hxn⟩ := List.mem_map.1 hmem
    exact (lookupIn_none_iff es e.name).1 hnew x hx hxn

theorem hasPrefix_go (v : String) : hasPrefix ("go" ++ v) "go" = true := by
  simp [hasPrefix, String.data_append]

/-- The listing with `node` put at `name`, whatever was there. -/
theorem lookupIn_put (es : List Entry) (n m : String) (node : Node) :
    lookupIn (insertEntry ⟨n, node⟩ (removeEntry es n)) m =
      if m = n then some node else lookupIn es m := by
  have h0 : lookupIn (removeEntry es n) n = none := by
    rw [lookupIn_removeEntry, if_pos rfl]
  rw [lookupIn_insertEntry ⟨n, node⟩ _ m h0]
  by_cases hm : m = n
  · simp [hm]
  · simp [hm, lookupIn_removeEntry]

theorem listingOK_put {es : List Entry} (h : ListingOK es) (n : String) (node : Node)
    (hslash : '/' ∉ n.data) : ListingOK (insertEntry ⟨n, node⟩ (removeEntry es n)) :=
  listingOK_insertEntry (listingOK_removeEntry h n) ⟨n, node⟩ hslash
    (by rw [lookupIn_removeEntry, if_pos rfl])

theorem goNamedIn_removeEntry {es : List Entry} (h : GoNamedIn es) (n : String) :
    GoNamedIn (removeEntry es n) :=
  fun e he => h e (List.mem_filter.1 he).1

theorem goNamedIn_put {es : List Entry} (h : GoNamedIn es) (n : String) (node : Node)
    (hn : node.isDir = true → n ≠ activeDir → hasPrefix n "go" = true) :
    GoNamedIn (insertEntry ⟨n, node⟩ (removeEntry es n)) := by
  intro e he
  rcases (mem_insertEntry _ e _).1 he with he | he
  · rw [he]; exact hn
  · exact goNamedIn_removeEntry h n e he

theorem removeEntry_of_lookupIn_none {es : List Entry} {n : String}
    (h : lookupIn es n = none) : removeEntry es n = es := by
  rw [removeEntry, List.filter_eq_self]
  intro e he
  simpa using (lookupIn_none_iff es n).1 h e he

theorem noSlash_of_listed {es : List Entry} (h : ListingOK es) {v : String}
    (hv : v ∈ versionsOf es) : '/' ∉ v.data := by
  obtain ⟨e, he, _, _, ht⟩ := (mem_versionsOf es v).1 hv
  have hs := h.1 e he
  rw [← ht, trimPrefix]
  split
  · exact fun c => hs (List.mem_of_mem_drop c)
  · exact hs

/-- On a conforming listing a listed version has its directory at `go<v>`. -/
theorem dir_of_listed {es : List Entry} (h : ListingOK es) (hg : GoNamedIn es) {v : String}
    (hv : v ∈ versionsOf es) : ∃ c, lookupIn es ("go" ++ v) = some (.dir c) := by
  obtain ⟨e, he, hd, hna, ht⟩ := (mem_versionsOf es v).1 hv
  have hn : e.name = "go" ++ v := by
    have := hasPrefix_go_eq e.name (hg e he hd hna)
    rw [ht] at this
    exact this
  have hl := lookupIn_of_mem_nodup h.2 he
  rw [hn] at hl
  cases hnode : e.node with
  | dir c => exact ⟨c, by rw [hl, hnode]⟩
  | file => rw [hnode] at hd; simp [Node.isDir] at hd
  | symlink t => rw [hnode] at hd; simp [Node.isDir] at hd

theorem osReadlink_eq_some_iff (es : List Entry) (o : List String) (t : String) :
    osReadlink ⟨some es, o⟩ goSymLink = some t ↔ lookupIn es "active" = some (.symlink t) := by
  rw [osReadlink_goSymLink]
  show (match lookupIn es "active" with
    | some (.symlink t) => some t
    | _ => none) = some t ↔ _
  cases hh : lookupIn es "active" with
  | none => simp
  | some node =>
    cases node with
    | file => simp
    | dir c => simp
    | symlink t' => simp

theorem osReadlink_eq_none_iff (es : List Entry) (o : List String) :
    osReadlink ⟨some es, o⟩ goSymLink = none ↔
      ∀ t, lookupIn es "active" ≠ some (.symlink t) := by
  rw [osReadlink_goSymLink]
  show (match lookupIn es "active" with
    | some (.symlink t) => some t
    | _ => none) = none ↔ _
  cases hh : lookupIn es "active" with
  | none => simp
  | some node =>
    cases node with
    | file => simp
    | dir c => simp
    | symlink t' => simp

/-- The predicate `ActiveLinkOK` carries over to a listing that has the same
entry at `active` and keeps the directory the link points to. -/
theorem activeLinkOK_transfer (es es1 : List Entry) (o : List String)
    (h : ActiveLinkOK ⟨some es, o⟩)
    (hact : lookupIn es1 "active" = lookupIn es "active")
    (hkeep : ∀ a c, lookupIn es "active" = some (.symlink (godir ++ "/go" ++ a)) →
      lookupIn es ("go" ++ a) = some (.dir c) → lookupIn es1 ("go" ++ a) = some (.dir c)) :
    ActiveLinkOK ⟨some es1, o⟩ := by
  rcases h with h | ⟨a, c, h1, h2, _⟩
  · left
    rw [osReadlink_eq_none_iff] at h ⊢
    rw [hact]; exact h
  · right
    rw [osReadlink_eq_some_iff] at h1
    have hd : lookupIn es1 ("go" ++ a) = some (.dir c) := hkeep a c h1 h2
    refine ⟨a, c, ?_, hd, versionsOf es1, versionList_some _ _, mem_versionsOf_of_dir es1 a c hd⟩
    rw [osReadlink_eq_some_iff, hact]; exact h1

/-- The function `setVersion` on a listed version whose path
`<install root>/go<v>` does not resolve: it stops at the path-not-found message
with the `os.Remove` of the link already issued, so every entry other than
`active` is as before and a link that was set is gone. -/
theorem setVersion_goPathNotFound (env : Env) (s : FS) (v : String) (vs : List String)
    (hlist : versionList s = .ok vs) (hv : v ∈ vs)
    (hmiss : pathExists s (godir ++ "/go" ++ v) = false) :
    setVersion env s v =
        ⟨.error .goPathNotFound, (osRemove s goSymLink).getD s,
          [.readDir godir, .remove goSymLink, .stat (godir ++ "/go" ++ v)]⟩
      ∧ (∀ n, n ≠ "active" → (setVersion env s v).fs.lookup n = s.lookup n)
      ∧ (∀ t, osReadlink s goSymLink = some t →
          (setVersion env s v).fs.lookup "active" = none ∧
          getActiveVersion (setVersion env s v).fs = .error .failedToReadLink) := by
  obtain ⟨es, hroot, hvs⟩ := (versionList_ok_iff s vs).1 hlist
  obtain ⟨root, o⟩ := s
  simp only at hroot
  subst hroot
  subst hvs
  obtain ⟨es1, h1, h2, _, h4⟩ := after_osRemove es o
  have hsub : ∀ n node, FS.lookup ⟨some es1, o⟩ n = some node →
      FS.lookup ⟨some es, o⟩ n = some node := by
    intro n node h
    rcases h2 with e | e
    · rw [e] at h; exact h
    · rw [e] at h
      have h' : lookupIn (removeEntry es "active") n = some node := h
      rw [lookupIn_removeEntry] at h'
      by_cases hn : n = "active"
      · rw [if_pos hn] at h'; exact Option.noConfusion h'
      · rw [if_neg hn] at h'; exact h'
  have hmiss1 : pathExists ⟨some es1, o⟩ (godir ++ "/go" ++ v) = false := by
    rw [Bool.eq_false_iff]
    intro h
    have := statOk_mono ⟨some es, o⟩ ⟨some es1, o⟩ rfl hsub 40 _ h
    rw [pathExists] at hmiss
    rw [hmiss] at this
    exact Bool.noConfusion this
  have hset : setVersion env ⟨some es, o⟩ v =
      ⟨.error .goPathNotFound, (osRemove ⟨some es, o⟩ goSymLink).getD ⟨some es, o⟩,
        [.readDir godir, .remove goSymLink, .stat (godir ++ "/go" ++ v)]⟩ := by
    rw [setVersion_listed env es o v hv, h1, hmiss1]
    simp
  rw [hset, h1]
  refine ⟨rfl, fun n hn => lookupIn_after_osRemove h2 n hn, fun t ht => ?_⟩
  have hl : lookupIn es "active" = some (.symlink t) := by
    rw [osReadlink_goSymLink] at ht
    have ht' : (match lookupIn es "active" with
      | some (.symlink t) => some t
      | _ => none) = some t := ht
    cases hh : lookupIn es "active" with
    | none => rw [hh] at ht'; simp at ht'
    | some node =>
      rw [hh] at ht'
      cases node with
      | file => simp at ht'
      | dir c => simp at ht'
      | symlink t' =>
        simp only [Option.some.injEq] at ht'
        rw [ht']
  have he := h4 t hl
  have hnone : FS.lookup ⟨some es1, o⟩ "active" = none := by
    show lookupIn es1 "active" = none
    rw [he, lookupIn_removeEntry, if_pos rfl]
  refine ⟨hnone, ?_⟩
  rw [getActiveVersion, osReadlink_goSymLink, hnone]

/-! ## Target validation -/

theorem windows_not_available : "windows" ∉ availablePlatforms := by decide

theorem download_rejected (env : Env) (s : FS) (version platform arch : String)
    (h : ¬ (platform ∈ availablePlatforms ∧ arch ∈ availableArch)) :
    ∃ e, e.isUnsupportedTarget = true ∧
      download env s version platform arch = ⟨.error e, s, []⟩ := by
  by_cases hw : platform = "windows"
  · exact ⟨.unsupportedPlatform, rfl, by simp [download, hw]⟩
  · refine ⟨.unsupportedPlatformOrArch, rfl, ?_⟩
    have hs : (!searchStrings availablePlatforms platform ||
        !searchStrings availableArch arch) = true := by
      by_cases hp : platform ∈ availablePlatforms
      · have ha : ¬ arch ∈ availableArch := fun ha => h ⟨hp, ha⟩
        have : searchStrings availableArch arch = false := by
          rw [Bool.eq_false_iff]
          exact fun c => ha ((searchStrings_iff _ _).1 c)
        simp [this]
      · have : searchStrings availablePlatforms platform = false := by
          rw [Bool.eq_false_iff]
          exact fun c => hp ((searchStrings_iff _ _).1 c)
        simp [this]
    rw [download, if_neg hw, if_pos hs]

theorem download_supported (env : Env) (s : FS) (version platform arch : String)
    (hp : platform ∈ availablePlatforms) (ha : arch ∈ availableArch) :
    download env s version platform arch =
      match versionList s with
      | .error _ => ⟨.error .failedToDownloadVersion, s, [.readDir godir]⟩
      | .ok versions =>
        if searchStrings versions version then
          ⟨.error .versionAlreadyExists, s, [.readDir godir]⟩
        else
          match env.httpGet (gosourceURL version platform arch) with
          | none =>
            ⟨.error .failedToGetTarball, s,
              [.readDir godir, .httpGet (gosourceURL version platform arch)]⟩
          | some data =>
            match env.extractGz data with
            | none =>
              ⟨.error .failedToExtract, s,
                [.readDir godir, .httpGet (gosourceURL version platform arch),
                  .extractGz ("/tmp/" ++ "go-" ++ env.randString)]⟩
            | some staged =>
              ⟨.ok (), (osRename s staged (godir ++ "/go" ++ version)).getD s,
                [.readDir godir, .httpGet (gosourceURL version platform arch),
                  .extractGz ("/tmp/" ++ "go-" ++ env.randString),
                  .rename ("/tmp/" ++ "go-" ++ env.randString ++ "/go")
                    (godir ++ "/go" ++ version),
                  .remove ("/tmp/" ++ "go-" ++ env.randString)]⟩ := by
  have hw : platform ≠ "windows" := fun e => windows_not_available (e ▸ hp)
  have hs : (!searchStrings availablePlatforms platform ||
      !searchStrings availableArch arch) = false := by
    simp [(searchStrings_iff _ _).2 hp, (searchStrings_iff _ _).2 ha]
  rw [download, if_neg hw, hs]
  simp only [Bool.false_eq_true, if_false]

theorem download_supported_not_rejected (env : Env) (s : FS) (version platform arch : String)
    (hp : platform ∈ availablePlatforms) (ha : arch ∈ availableArch) (e : Err)
    (he : e.isUnsupportedTarget = true) :
    (download env s version platform arch).result ≠ .error e := by
  rw [download_supported env s version platform arch hp ha]
  intro h
  split at h
  · injection h with h; subst h; simp [Err.isUnsupportedTarget] at he
  · split at h
    · injection h with h; subst h; simp [Err.isUnsupportedTarget] at he
    · split at h
      · injection h with h; subst h; simp [Err.isUnsupportedTarget] at he
      · split at h
        · injection h with h; subst h; simp [Err.isUnsupportedTarget] at he
        · simp at h

/-! ## What each operation does to the listing -/

theorem deleteVersion_fs_none (o : List String) (v : String) :
    (deleteVersion ⟨none, o⟩ v).fs = ⟨none, o⟩ := by
  unfold deleteVersion
  simp only [versionList_none, List.foldl_nil]
  split <;> rfl

theorem setVersion_fs_none (env : Env) (o : List String) (v : String) :
    (setVersion env ⟨none, o⟩ v).fs = ⟨none, o⟩ := by
  simp [setVersion, versionList_none]

theorem download_fs_none (env : Env) (o : List String) (v p a : String) :
    (download env ⟨none, o⟩ v p a).fs = ⟨none, o⟩ := by
  by_cases h : p ∈ availablePlatforms ∧ a ∈ availableArch
  · rw [download_supported env _ v p a h.1 h.2, versionList_none]
  · obtain ⟨e, _, hd⟩ := download_rejected env ⟨none, o⟩ v p a h
    rw [hd]

theorem deleteVersion_fs (es : List Entry) (o : List String) (v : String)
    (hwf : ListingOK es) :
    (deleteVersion ⟨some es, o⟩ v).fs = ⟨some es, o⟩ ∨
      (v ∈ versionsOf es ∧
        (match getActiveVersion ⟨some es, o⟩ with
          | .ok a => a
          | .error _ => "") ≠ v ∧
        (deleteVersion ⟨some es, o⟩ v).fs = ⟨some (removeEntry es ("go" ++ v)), o⟩) := by
  by_cases hact : (match getActiveVersion ⟨some es, o⟩ with
      | .ok a => a
      | .error _ => "") = v
  · left
    unfold deleteVersion
    simp only [if_pos hact]
  · by_cases hv : v ∈ versionsOf es
    · right
      refine ⟨hv, hact, ?_⟩
      rw [deleteVersion_removes es o v (noSlash_of_listed hwf hv) hv hact]
    · left
      have hf : (versionsOf es).foldl (fun found x => if x = v then true else found) false
          = false := by
        rw [Bool.eq_false_iff]
        intro c
        rcases (found_iff _ _ _).1 c with c | c
        · exact Bool.noConfusion c
        · exact hv c
      unfold deleteVersion
      simp only [if_neg hact, versionList_some, hf, Bool.not_false, if_true]

theorem setVersion_fs (env : Env) (es : List Entry) (o : List String) (v : String)
    (hwf : ListingOK es) (hg : GoNamedIn es) :
    (setVersion env ⟨some es, o⟩ v).fs = ⟨some es, o⟩ ∨
      ∃ c, lookupIn es ("go" ++ v) = some (.dir c) ∧ '/' ∉ v.data ∧
        (setVersion env ⟨some es, o⟩ v).fs =
          ⟨some (insertEntry ⟨"active", .symlink (godir ++ "/go" ++ v)⟩
            (removeEntry es "active")), o⟩ := by
  by_cases hv : v ∈ versionsOf es
  · obtain ⟨c, hdir⟩ := dir_of_listed hwf hg hv
    have hslash := noSlash_of_listed hwf hv
    by_cases hb : ∃ x xs, lookupIn es "active" = some (.dir (x :: xs))
    · left
      obtain ⟨x, xs, hx⟩ := hb
      have h1 : (osRemove ⟨some es, o⟩ goSymLink).getD ⟨some es, o⟩ = ⟨some es, o⟩ := by
        rw [osRemove_goSymLink, hx]; rfl
      have h2 : osSymlink ⟨some es, o⟩ (godir ++ "/go" ++ v) goSymLink = none := by
        simp [osSymlink, childName_goSymLink, hx]
      rw [setVersion_listed env es o v hv, h1, pathExists_go_of_dir es o v c hslash hdir, h2]
      rfl
    · right
      have hrem : ∀ x xs, lookupIn es "active" ≠ some (.dir (x :: xs)) :=
        fun x xs h => hb ⟨x, xs, h⟩
      obtain ⟨es1, h1, hnone, hfs, _⟩ := setVersion_links env es o v c hslash hdir hrem
      have he : es1 = removeEntry es "active" := by
        rcases h1 with h1 | h1
        · rw [h1] at hnone
          rw [h1, removeEntry_of_lookupIn_none hnone]
        · exact h1
      exact ⟨c, hdir, hslash, by rw [hfs, he]⟩
  · left
    rw [setVersion_unlisted env ⟨some es, o⟩ v (versionsOf es) (versionList_some es o) hv]

theorem osRename_go (es : List Entry) (o : List String) (staged : Option Node) (v : String)
    (hslash : '/' ∉ v.data) :
    (osRename ⟨some es, o⟩ staged (godir ++ "/go" ++ v)).getD ⟨some es, o⟩ = ⟨some es, o⟩ ∨
      ∃ src, (osRename ⟨some es, o⟩ staged (godir ++ "/go" ++ v)).getD ⟨some es, o⟩ =
        ⟨some (insertEntry ⟨"go" ++ v, src⟩ (removeEntry es ("go" ++ v))), o⟩ := by
  cases staged with
  | none => left; simp [osRename]
  | some src =>
    cases hl : lookupIn es ("go" ++ v) with
    | none =>
      right
      refine ⟨src, ?_⟩
      simp [osRename, childName_go v hslash, hl, removeEntry_of_lookupIn_none hl]
    | some node =>
      cases node with
      | dir c => left; simp [osRename, childName_go v hslash, hl]
      | file =>
        by_cases hd : src.isDir = true
        · left; simp [osRename, childName_go v hslash, hl, hd]
        · right
          exact ⟨src, by simp [osRename, childName_go v hslash, hl, hd]⟩
      | symlink t =>
        by_cases hd : src.isDir = true
        · left; simp [osRename, childName_go v hslash, hl, hd]
        · right
          exact ⟨src, by simp [osRename, childName_go v hslash, hl, hd]⟩

theorem download_fs (env : Env) (es : List Entry) (o : List String) (v p a : String)
    (hslash : '/' ∉ v.data) :
    (download env ⟨some es, o⟩ v p a).fs = ⟨some es, o⟩ ∨
      (v ∉ versionsOf es ∧ ∃ src, (download env ⟨some es, o⟩ v p a).fs =
        ⟨some (insertEntry ⟨"go" ++ v, src⟩ (removeEntry es ("go" ++ v))), o⟩) := by
  by_cases h : p ∈ availablePlatforms ∧ a ∈ availableArch
  · rw [download_supported env _ v p a h.1 h.2, versionList_some]
    simp only
    by_cases hv : v ∈ versionsOf es
    · left
      simp only [(searchStrings_iff _ _).2 hv, if_true]
    · have hs : searchStrings (versionsOf es) v = false := by
        rw [Bool.eq_false_iff]
        exact fun c => hv ((searchStrings_iff _ _).1 c)
      simp only [hs, Bool.false_eq_true, if_false]
      cases env.httpGet (gosourceURL v p a) with
      | none => left; rfl
      | some data =>
        dsimp only
        cases env.extractGz data with
        | none => left; rfl
        | some staged =>
          dsimp only
          rcases osRename_go es o staged v hslash with h1 | ⟨src, h1⟩
          · left; exact h1
          · right; exact ⟨hv, src, h1⟩
  · left
    obtain ⟨e, _, hd⟩ := download_rejected env ⟨some es, o⟩ v p a h
    rw [hd]

/-- A first `download` that meets a fetched archive with a directory `go`, and
nothing at `go<v>`, puts that directory there. -/
theorem download_installs (env : Env) (es : List Entry) (o : List String) (v p a : String)
    (c : List String) (data : List Nat)
    (hp : p ∈ availablePlatforms) (ha : a ∈ availableArch) (hslash : '/' ∉ v.data)
    (hv : v ∉ versionsOf es) (hnew : lookupIn es ("go" ++ v) = none)
    (hget : env.httpGet (gosourceURL v p a) = some data)
    (hext : env.extractGz data = some (some (.dir c))) :
    (download env ⟨some es, o⟩ v p a).result = .ok () ∧
      (download env ⟨some es, o⟩ v p a).fs =
        ⟨some (insertEntry ⟨"go" ++ v, .dir c⟩ es), o⟩ := by
  have hs : searchStrings (versionsOf es) v = false := by
    rw [Bool.eq_false_iff]
    exact fun h => hv ((searchStrings_iff _ _).1 h)
  rw [download_supported env _ v p a hp ha, versionList_some]
  simp only [hs, Bool.false_eq_true, if_false, hget, hext, true_and]
  simp [osRename, childName_go v hslash, hnew]

/-! ## The invariant -/

theorem conforming_of_listing (es : List Entry) (o : List String) (h1 : ListingOK es)
    (h2 : GoNamedIn es) : Conforming ⟨some es, o⟩ := by
  refine ⟨wf_of_listing es o h1, ?_⟩
  intro es' h'
  simp only [Option.some.injEq] at h'
  subst h'
  exact h2

theorem noSlash_go {v : String} (h : '/' ∉ v.data) : '/' ∉ ("go" ++ v).data := by
  simp [data_go, h]

theorem noSlash_of_lookupIn {es : List Entry} (hwf : ListingOK es) {v : String} {node : Node}
    (h : lookupIn es ("go" ++ v) = some node) : '/' ∉ v.data := by
  obtain ⟨e, he, hn, _⟩ := lookupIn_some_mem h
  have := hwf.1 e he
  rw [hn, data_go] at this
  intro c
  exact this (by simp [c])

theorem download_preserves (env : Env) (es : List Entry) (o : List String) (v p a : String)
    (hwf : ListingOK es) (hg : GoNamedIn es) (hslash : '/' ∉ v.data)
    (hi : ActiveLinkOK ⟨some es, o⟩) :
    Conforming (download env ⟨some es, o⟩ v p a).fs ∧
      ActiveLinkOK (download env ⟨some es, o⟩ v p a).fs := by
  rcases download_fs env es o v p a hslash with h | ⟨hv, src, h⟩
  · rw [h]; exact ⟨conforming_of_listing es o hwf hg, hi⟩
  · rw [h]
    refine ⟨conforming_of_listing _ o (listingOK_put hwf _ _ (noSlash_go hslash))
      (goNamedIn_put hg _ _ (fun _ _ => hasPrefix_go v)), ?_⟩
    refine activeLinkOK_transfer es _ o hi ?_ ?_
    · rw [lookupIn_put, if_neg (fun e => go_ne_active v e.symm)]
    · intro b c _ h2
      have hb : b ∈ versionsOf es := mem_versionsOf_of_dir es b c h2
      have hne : "go" ++ b ≠ "go" ++ v := fun e => hv (go_injective e ▸ hb)
      rw [lookupIn_put, if_neg hne]
      exact h2

theorem setVersion_preserves (env : Env) (es : List Entry) (o : List String) (v : String)
    (hwf : ListingOK es) (hg : GoNamedIn es) (hi : ActiveLinkOK ⟨some es, o⟩) :
    Conforming (setVersion env ⟨some es, o⟩ v).fs ∧
      ActiveLinkOK (setVersion env ⟨some es, o⟩ v).fs := by
  rcases setVersion_fs env es o v hwf hg with h | ⟨c, hdir, hslash, h⟩
  · rw [h]; exact ⟨conforming_of_listing es o hwf hg, hi⟩
  · rw [h]
    have hd : lookupIn (insertEntry ⟨"active", .symlink (godir ++ "/go" ++ v)⟩
        (removeEntry es "active")) ("go" ++ v) = some (.dir c) := by
      rw [lookupIn_put, if_neg (show "go" ++ v ≠ "active" from go_ne_active v)]
      exact hdir
    refine ⟨conforming_of_listing _ o (listingOK_put hwf _ _ (by decide))
      (goNamedIn_put hg _ _ (fun hd => by simp [Node.isDir] at hd)), Or.inr ⟨v, c, ?_, hd, _,
        versionList_some _ _, mem_versionsOf_of_dir _ v c hd⟩⟩
    rw [osReadlink_eq_some_iff, lookupIn_put, if_pos rfl]

theorem deleteVersion_preserves (es : List Entry) (o : List String) (v : String)
    (hwf : ListingOK es) (hg : GoNamedIn es) (hi : ActiveLinkOK ⟨some es, o⟩) :
    Conforming (deleteVersion ⟨some es, o⟩ v).fs ∧
      ActiveLinkOK (deleteVersion ⟨some es, o⟩ v).fs := by
  rcases deleteVersion_fs es o v hwf with h | ⟨_, hact, h⟩
  · rw [h]; exact ⟨conforming_of_listing es o hwf hg, hi⟩
  · rw [h]
    refine ⟨conforming_of_listing _ o (listingOK_removeEntry hwf _)
      (goNamedIn_removeEntry hg _), ?_⟩
    refine activeLinkOK_transfer es _ o hi ?_ ?_
    · rw [lookupIn_removeEntry, if_neg (fun e => go_ne_active v e.symm)]
    · intro b c h1 h2
      have hb := getActiveVersion_of_link es o b (noSlash_of_lookupIn hwf h2) h1
      rw [hb] at hact
      have hne : "go" ++ b ≠ "go" ++ v := fun e => hact (go_injective e)
      rw [lookupIn_removeEntry, if_neg hne]
      exact h2

theorem conforming_none (o : List String) : Conforming ⟨none, o⟩ :=
  ⟨fun es h => by simp at h, fun es h => by simp at h⟩

/-- One operation, whatever its result, keeps a conforming install root
conforming and the active link sound. -/
theorem step_preserves (s : FS) (op : Op) (hc : Conforming s) (hok : op.versionOK)
    (hi : ActiveLinkOK s) :
    Conforming (op.run s).fs ∧ ActiveLinkOK (op.run s).fs := by
  obtain ⟨root, o⟩ := s
  cases root with
  | none =>
    cases op with
    | download env v p a =>
      show Conforming (download env ⟨none, o⟩ v p a).fs ∧
        ActiveLinkOK (download env ⟨none, o⟩ v p a).fs
      rw [download_fs_none]; exact ⟨hc, hi⟩
    | set env v =>
      show Conforming (setVersion env ⟨none, o⟩ v).fs ∧
        ActiveLinkOK (setVersion env ⟨none, o⟩ v).fs
      rw [setVersion_fs_none]; exact ⟨hc, hi⟩
    | delete v =>
      show Conforming (deleteVersion ⟨none, o⟩ v).fs ∧
        ActiveLinkOK (deleteVersion ⟨none, o⟩ v).fs
      rw [deleteVersion_fs_none]; exact ⟨hc, hi⟩
  | some es =>
    have hwf : ListingOK es := hc.1 es rfl
    have hg : GoNamedIn es := hc.2 es rfl
    cases op with
    | download env v p a => exact download_preserves env es o v p a hwf hg hok hi
    | set env v => exact setVersion_preserves env es o v hwf hg hi
    | delete v => exact deleteVersion_preserves es o v hwf hg hi

theorem runAll_preserves (ops : List Op) :
    ∀ s : FS, Conforming s → ActiveLinkOK s → (∀ op ∈ ops, op.versionOK) →
      Conforming (runAll s ops) ∧ ActiveLinkOK (runAll s ops) := by
  induction ops with
  | nil => intro s hc hi _; exact ⟨hc, hi⟩
  | cons op ops ih =>
    intro s hc hi hok
    have h := step_preserves s op hc (hok op (List.mem_cons_self _ _)) hi
    exact ih _ h.1 h.2 (fun x hx => hok x (List.mem_cons_of_mem _ hx))

theorem empty_root_sound (o : List String) :
    Conforming ⟨some [], o⟩ ∧ ActiveLinkOK ⟨some [], o⟩ := by
  refine ⟨conforming_of_listing [] o (by decide) (by decide), Or.inl ?_⟩
  rw [osReadlink_eq_none_iff]
  intro t h
  simp [lookupIn] at h

/-! ## The claims -/

/-- C10: on a readable install root `versionList` returns, in the listing's
order, the name with the leading `go` trimmed of exactly the entries that are
directories and are not called `active`: as many versions as there are such
entries, and none from an entry called `active`; on an install root that
cannot be read it returns the error, not an empty list. -/
theorem versionList_spec (entries : List Entry) (outside : List String) :
    versionList ⟨some entries, outside⟩ =
        .ok ((entries.filter (fun e => e.node.isDir && e.name != "active")).map
          (fun e => trimPrefix e.name "go"))
      ∧ (∃ vs, versionList ⟨some entries, outside⟩ = .ok vs ∧
          vs.length = entries.countP (fun e => e.node.isDir && e.name != "active"))
      ∧ versionList ⟨some (entries.filter (fun e => e.name ≠ "active")), outside⟩ =
          versionList ⟨some entries, outside⟩
      ∧ versionList ⟨none, outside⟩ = .error .unableToListVersions
      ∧ versionList ⟨none, outside⟩ ≠ .ok [] := by
  refine ⟨versionList_some _ _, ⟨_, versionList_some _ _, ?_⟩, ?_, versionList_none _, ?_⟩
  · simp [versionsOf, List.countP_eq_length_filter, activeDir]
  · rw [versionList_some, versionList_some]
    congr 1
    simp only [versionsOf, List.filter_filter, activeDir]
    congr 2
    funext e
    by_cases h : e.name = "active" <;> simp [h]
  · rw [versionList_none]
    simp

/-- C7: `download` gets past the target validation exactly when the platform
is one of darwin, linux, freebsd and the arch one of amd64, arm64, 386, armv6l,
ppc64le, s390x; any other pair (windows/amd64 among them) is rejected with an
unsupported-target error, with no call issued (no read of the install root, no
fetch) and the file system as it was. -/
theorem download_target_validation (env : Env) (s : FS) (version platform arch : String) :
    ((∀ e, e.isUnsupportedTarget = true →
          (download env s version platform arch).result ≠ .error e) ↔
        (platform ∈ ["darwin", "linux", "freebsd"] ∧
          arch ∈ ["amd64", "arm64", "386", "armv6l", "ppc64le", "s390x"]))
      ∧ ((platform ∈ ["darwin", "linux", "freebsd"] ∧
            arch ∈ ["amd64", "arm64", "386", "armv6l", "ppc64le", "s390x"]) ∨
          ∃ e, e.isUnsupportedTarget = true ∧
            download env s version platform arch = ⟨.error e, s, []⟩)
      ∧ download env s version "windows" "amd64" = ⟨.error .unsupportedPlatform, s, []⟩ := by
  refine ⟨⟨fun h => ?_, fun h e he => ?_⟩, ?_, by simp [download]⟩
  · by_contra hn
    obtain ⟨e, he, hd⟩ := download_rejected env s version platform arch hn
    exact h e he (by rw [hd])
  · exact download_supported_not_rejected env s version platform arch h.1 h.2 e he
  · by_cases h : platform ∈ availablePlatforms ∧ arch ∈ availableArch
    · exact Or.inl h
    · exact Or.inr (download_rejected env s version platform arch h)

/-- C8: on a readable install root, `setVersion` of a version that is not in
the listing fails with the unknown-version message after reading the install
root only: the file system is exactly as before. -/
theorem setVersion_unknown (env : Env) (s : FS) (v : String) (vs : List String)
    (hlist : versionList s = .ok vs) (hv : v ∉ vs) :
    setVersion env s v = ⟨.error .unknownGoVersion, s, [.readDir godir]⟩
      ∧ (setVersion env s v).fs = s
      ∧ osReadlink (setVersion env s v).fs goSymLink = osReadlink s goSymLink
      ∧ (∀ n, (setVersion env s v).fs.lookup n = s.lookup n) := by
  rw [setVersion_unlisted env s v vs hlist hv]
  exact ⟨rfl, rfl, rfl, fun _ => rfl⟩

/-- Witness of C8: `1.20.0` is not installed next to `1.21.0` and `1.22.0`. -/
theorem setVersion_unknown_witness :
    versionList twoVersions = .ok ["1.21.0", "1.22.0"] ∧ "1.20.0" ∉ ["1.21.0", "1.22.0"] ∧
      setVersion goodEnv twoVersions "1.20.0" =
        ⟨.error .unknownGoVersion, twoVersions, [.readDir godir]⟩ :=
  ⟨by decide, by decide,
    (setVersion_unknown goodEnv twoVersions "1.20.0" ["1.21.0", "1.22.0"]
      (by decide) (by decide)).1⟩

/-- C1: when `v` is what `getActiveVersion` returns, `deleteVersion v` stops at
the active-version notice after reading the link only, the file system is
exactly as before, so the listing is as before: `v` is listed afterwards
whenever it was listed before, and whenever its directory `go<v>` exists. -/
theorem deleteVersion_active (s : FS) (v : String) (h : getActiveVersion s = .ok v) :
    deleteVersion s v = ⟨.error .activeVersionNotice, s, [.readlink goSymLink]⟩
      ∧ versionList (deleteVersion s v).fs = versionList s
      ∧ (∀ vs, versionList s = .ok vs → v ∈ vs →
          ∃ vs', versionList (deleteVersion s v).fs = .ok vs' ∧ v ∈ vs')
      ∧ (∀ c, s.lookup ("go" ++ v) = some (.dir c) →
          ∃ vs', versionList (deleteVersion s v).fs = .ok vs' ∧ v ∈ vs') := by
  have hd : deleteVersion s v = ⟨.error .activeVersionNotice, s, [.readlink goSymLink]⟩ := by
    simp [deleteVersion, h]
  rw [hd]
  refine ⟨rfl, rfl, fun vs h1 h2 => ⟨vs, h1, h2⟩, fun c hc => ?_⟩
  obtain ⟨root, o⟩ := s
  cases root with
  | none => simp [FS.lookup] at hc
  | some es =>
    exact ⟨versionsOf es, versionList_some es o, mem_versionsOf_of_dir es v c hc⟩

/-- Witness of C1: with `go1.21.0` active, deleting `1.21.0` is refused. -/
theorem deleteVersion_active_witness :
    getActiveVersion twoVersions = .ok "1.21.0" ∧
      deleteVersion twoVersions "1.21.0" =
        ⟨.error .activeVersionNotice, twoVersions, [.readlink goSymLink]⟩ ∧
      versionList (deleteVersion twoVersions "1.21.0").fs = .ok ["1.21.0", "1.22.0"] :=
  ⟨by decide, (deleteVersion_active twoVersions "1.21.0" (by decide)).1, by decide⟩

/-- C4 (amended): on a well-formed listing in which `go<v>` is a directory, `v`
is not what `getActiveVersion` returns and, when no active link can be read,
`v` is not the empty string, `deleteVersion v` succeeds and leaves the listing
without the entry `go<v>`: nothing is at `go<v>` afterwards, every other entry
(the active link among them) is as before, every other version is listed
exactly when it was before, and `v` is no longer listed unless a directory
named `v` itself is present. -/
theorem deleteVersion_installed (s : FS) (v : String) (c : List String)
    (hwf : s.WF) (hdir : s.lookup ("go" ++ v) = some (.dir c))
    (hact : getActiveVersion s ≠ .ok v)
    (hlink : v ≠ "" ∨ ∃ a, getActiveVersion s = .ok a) :
    (deleteVersion s v).result = .ok ()
      ∧ (deleteVersion s v).fs.lookup ("go" ++ v) = none
      ∧ (∀ n, n ≠ "go" ++ v → (deleteVersion s v).fs.lookup n = s.lookup n)
      ∧ (deleteVersion s v).fs.outside = s.outside
      ∧ osReadlink (deleteVersion s v).fs goSymLink = osReadlink s goSymLink
      ∧ getActiveVersion (deleteVersion s v).fs = getActiveVersion s
      ∧ ∃ vs vs', versionList s = .ok vs ∧ versionList (deleteVersion s v).fs = .ok vs'
          ∧ v ∈ vs
          ∧ (∀ w, w ≠ v → (w ∈ vs' ↔ w ∈ vs))
          ∧ ((∀ c', s.lookup v ≠ some (.dir c')) → v ∉ vs') := by
  have hslash := noSlash_of_lookup hwf hdir
  obtain ⟨root, o⟩ := s
  cases root with
  | none => simp [FS.lookup] at hdir
  | some es =>
    have hdir' : lookupIn es ("go" ++ v) = some (.dir c) := hdir
    have hv : v ∈ versionsOf es := mem_versionsOf_of_dir es v c hdir'
    have hact' : (match getActiveVersion ⟨some es, o⟩ with
        | .ok a => a
        | .error _ => "") ≠ v := by
      cases hg : getActiveVersion ⟨some es, o⟩ with
      | ok a =>
        intro e
        simp only at e
        exact hact (by rw [hg, e])
      | error err =>
        rcases hlink with h | ⟨a, h⟩
        · exact fun e => h e.symm
        · rw [hg] at h; exact Except.noConfusion h
    have hd := deleteVersion_removes es o v hslash hv hact'
    have hlk : ∀ n, n ≠ "go" ++ v →
        FS.lookup ⟨some (removeEntry es ("go" ++ v)), o⟩ n = FS.lookup ⟨some es, o⟩ n := by
      intro n hn
      show lookupIn (removeEntry es ("go" ++ v)) n = lookupIn es n
      rw [lookupIn_removeEntry, if_neg hn]
    have hrl : osReadlink ⟨some (removeEntry es ("go" ++ v)), o⟩ goSymLink =
        osReadlink ⟨some es, o⟩ goSymLink := by
      rw [osReadlink_goSymLink, osReadlink_goSymLink,
        hlk "active" (fun e => go_ne_active v e.symm)]
    rw [hd]
    refine ⟨rfl, ?_, hlk, rfl, hrl, ?_, versionsOf es, versionsOf (removeEntry es ("go" ++ v)),
      versionList_some _ _, versionList_some _ _, hv, ?_, ?_⟩
    · show lookupIn (removeEntry es ("go" ++ v)) ("go" ++ v) = none
      rw [lookupIn_removeEntry, if_pos rfl]
    · simp only [getActiveVersion, hrl]
    · intro w hw
      rw [mem_versionsOf_removeEntry, mem_versionsOf]
      constructor
      · rintro ⟨e, he, _, h1, h2, h3⟩
        exact ⟨e, he, h1, h2, h3⟩
      · rintro ⟨e, he, h1, h2, h3⟩
        refine ⟨e, he, ?_, h1, h2, h3⟩
        intro hn
        rw [hn, trimPrefix_go] at h3
        exact hw h3.symm
    · intro hnd hmem
      rw [mem_versionsOf_removeEntry] at hmem
      obtain ⟨e, he, hn, h1, h2, h3⟩ := hmem
      cases hp : hasPrefix e.name "go" with
      | true =>
        have := hasPrefix_go_eq e.name hp
        rw [h3] at this
        exact hn this
      | false =>
        rw [trimPrefix_not_hasPrefix _ _ hp] at h3
        have hl := lookupIn_of_mem_nodup (hwf es rfl).2 he
        rw [h3] at hl
        cases hnode : e.node with
        | dir c' =>
          rw [hnode] at hl
          exact hnd c' hl
        | file => rw [hnode] at h1; simp [Node.isDir] at h1
        | symlink t => rw [hnode] at h1; simp [Node.isDir] at h1

/-- Witness of C4 (amended): with `1.21.0` active, deleting `1.22.0` succeeds
and leaves `1.21.0` alone. -/
theorem deleteVersion_installed_witness :
    twoVersions.WF ∧ twoVersions.lookup ("go" ++ "1.22.0") = some (.dir ["bin/go"]) ∧
      getActiveVersion twoVersions ≠ .ok "1.22.0" ∧
      (deleteVersion twoVersions "1.22.0").result = .ok () ∧
      versionList (deleteVersion twoVersions "1.22.0").fs = .ok ["1.21.0"] :=
  ⟨wf_of_listing _ _ (by decide), by decide, by decide,
    (deleteVersion_installed twoVersions "1.22.0" ["bin/go"] (wf_of_listing _ _ (by decide))
      (by decide) (by decide) (Or.inr ⟨"1.21.0", by decide⟩)).1, by decide⟩

/-- C4 as stated fails twice.  The directory `bin` is listed as version `bin`
and is not active; `deleteVersion "bin"` succeeds (it removes `gobin`, which is
not there) and `bin` is still listed.  The directory `go` is listed as the
version with the empty name and no link is set; `deleteVersion ""` stops at
the active-version notice. -/
theorem deleteVersion_installed_counterexample :
    (versionList onlyBinDir = .ok ["bin"] ∧ getActiveVersion onlyBinDir ≠ .ok "bin" ∧
        (deleteVersion onlyBinDir "bin").result = .ok () ∧
        versionList (deleteVersion onlyBinDir "bin").fs = .ok ["bin"])
      ∧ (versionList onlyGoDir = .ok [""] ∧ getActiveVersion onlyGoDir ≠ .ok "" ∧
        (deleteVersion onlyGoDir "").result = .error .activeVersionNotice) := by
  decide

/-- C3 (amended): on a well-formed listing in which `go<v>` is a directory (so
`v` is listed) and the link path is free or removable (not a directory with
content), after `setVersion v` the link points to `<install root>/go<v>` and
`getActiveVersion` returns `v`, whether or not the closing `go version` runs. -/
theorem setVersion_getActiveVersion (env : Env) (s : FS) (v : String) (c : List String)
    (hwf : s.WF) (hdir : s.lookup ("go" ++ v) = some (.dir c))
    (hfree : s.linkBlocked = false) :
    (∃ vs, versionList s = .ok vs ∧ v ∈ vs)
      ∧ osReadlink (setVersion env s v).fs goSymLink = some (godir ++ "/go" ++ v)
      ∧ getActiveVersion (setVersion env s v).fs = .ok v
      ∧ ((setVersion env s v).result = .ok () ∨
          (setVersion env s v).result = .error .failedToExecGoVersion) := by
  have hslash := noSlash_of_lookup hwf hdir
  obtain ⟨root, o⟩ := s
  cases root with
  | none => simp [FS.lookup] at hdir
  | some es =>
    have hrem : ∀ x xs, lookupIn es "active" ≠ some (.dir (x :: xs)) := by
      intro x xs h
      have : FS.lookup ⟨some es, o⟩ "active" = some (.dir (x :: xs)) := h
      simp [FS.linkBlocked, this] at hfree
    obtain ⟨es1, _, hnone, hfs, hres⟩ := setVersion_links env es o v c hslash hdir hrem
    have hl : lookupIn (insertEntry ⟨"active", .symlink (godir ++ "/go" ++ v)⟩ es1) "active"
        = some (.symlink (godir ++ "/go" ++ v)) := by
      rw [lookupIn_insertEntry _ _ _ hnone, if_pos rfl]
    refine ⟨⟨_, versionList_some es o, mem_versionsOf_of_dir es v c hdir⟩, ?_, ?_, hres⟩
    · rw [hfs, osReadlink_goSymLink]
      show (match lookupIn _ "active" with
        | some (.symlink t) => some t
        | _ => none) = _
      rw [hl]
    · rw [hfs]
      exact getActiveVersion_of_link _ o v hslash hl

/-- Witness of C3 (amended): switching from `1.21.0` to `1.22.0`. -/
theorem setVersion_getActiveVersion_witness :
    twoVersions.WF ∧ twoVersions.lookup ("go" ++ "1.22.0") = some (.dir ["bin/go"]) ∧
      getActiveVersion twoVersions = .ok "1.21.0" ∧
      getActiveVersion (setVersion goodEnv twoVersions "1.22.0").fs = .ok "1.22.0" :=
  ⟨wf_of_listing _ _ (by decide), by decide, by decide,
    (setVersion_getActiveVersion goodEnv twoVersions "1.22.0" ["bin/go"]
      (wf_of_listing _ _ (by decide)) (by decide) (by decide)).2.2.1⟩

/-- C3 as stated fails twice.  The directory `bin` is listed as version `bin`,
but `setVersion "bin"` finds no `gobin` and fails, and no active version can be
read afterwards.  With a directory that has content at the link path, the
listed version `1.21.0` (whose directory exists) cannot be linked, and no
active version can be read afterwards. -/
theorem setVersion_getActiveVersion_counterexample :
    (versionList onlyBinDir = .ok ["bin"] ∧
        (setVersion goodEnv onlyBinDir "bin").result = .error .goPathNotFound ∧
        getActiveVersion (setVersion goodEnv onlyBinDir "bin").fs ≠ .ok "bin")
      ∧ (versionList blockedLink = .ok ["1.21.0"] ∧
        (setVersion goodEnv blockedLink "1.21.0").result = .error .failedToSymlink ∧
        getActiveVersion (setVersion goodEnv blockedLink "1.21.0").fs ≠ .ok "1.21.0") := by
  decide

/-- C9 (the code at the failing input): with `1.21.0` active and `bin` listed
without a directory `gobin`, `setVersion "bin"` fails with the path-not-found
message, but only after `os.Remove` took the active link away: the link that
was set is gone and `getActiveVersion`, which returned `1.21.0` before the
call, fails after it.  The test for an unlisted version, in the same function,
exits before any change (`setVersion "1.20.0"` leaves the link in place). -/
theorem setVersion_missing_install_unsets_link :
    versionList withBinDir = .ok ["bin", "1.21.0"] ∧
      withBinDir.lookup ("go" ++ "bin") = none ∧
      pathExists withBinDir (godir ++ "/go" ++ "bin") = false ∧
      getActiveVersion withBinDir = .ok "1.21.0" ∧
      setVersion goodEnv withBinDir "bin" =
        ⟨.error .goPathNotFound, ⟨some [⟨"bin", .dir ["go", "gofmt"]⟩,
            ⟨"go1.21.0", .dir ["bin/go"]⟩], []⟩,
          [.readDir godir, .remove goSymLink, .stat "/usr/local/go/gobin"]⟩ ∧
      osReadlink (setVersion goodEnv withBinDir "bin").fs goSymLink = none ∧
      getActiveVersion (setVersion goodEnv withBinDir "bin").fs = .error .failedToReadLink ∧
      getActiveVersion (setVersion goodEnv withBinDir "1.20.0").fs = .ok "1.21.0" := by
  decide

/-- C5 (the code at the failing input): on an empty install root, with an
archive that decodes but holds no top-level `go`, `download` returns success
although the rename failed; the install root is still empty and `1.21.0` is not
listed. -/
theorem download_success_not_listed :
    versionList emptyRoot = .ok [] ∧
      download noGoDirEnv emptyRoot "1.21.0" "darwin" "arm64" =
        ⟨.ok (), emptyRoot,
          [.readDir godir, .httpGet "https://go.dev/dl/go1.21.0.darwin-arm64.tar.gz",
            .extractGz "/tmp/go-abcdefgh",
            .rename "/tmp/go-abcdefgh/go" "/usr/local/go/go1.21.0",
            .remove "/tmp/go-abcdefgh"]⟩ ∧
      versionList (download noGoDirEnv emptyRoot "1.21.0" "darwin" "arm64").fs = .ok [] := by
  decide

/-- C6 (amended): for a supported platform/arch, `download v` on any state in
which `v` is listed fails with the already-exists message after reading the
install root only: no fetch is issued and the file system is exactly as
before.  In particular, when a first `download v` has left `v` listed, a
second one fails this way and leaves the file system as the first left it;
and the first does leave `v` listed when `v` is a single path component,
nothing is at `go<v>`, and the fetched archive decodes to a directory `go`. -/
theorem download_existing (env env1 : Env) (s : FS) (v p a : String)
    (hp : p ∈ availablePlatforms) (ha : a ∈ availableArch) :
    (∀ vs, versionList s = .ok vs → v ∈ vs →
        download env s v p a = ⟨.error .versionAlreadyExists, s, [.readDir godir]⟩ ∧
        ∀ url, Call.httpGet url ∉ (download env s v p a).calls)
      ∧ (∀ vs1, versionList (download env1 s v p a).fs = .ok vs1 → v ∈ vs1 →
        download env (download env1 s v p a).fs v p a =
          ⟨.error .versionAlreadyExists, (download env1 s v p a).fs, [.readDir godir]⟩)
      ∧ (∀ es c data, s.root = some es → '/' ∉ v.data → v ∉ versionsOf es →
        lookupIn es ("go" ++ v) = none →
        env1.httpGet (gosourceURL v p a) = some data →
        env1.extractGz data = some (some (.dir c)) →
        (download env1 s v p a).result = .ok () ∧
        download env (download env1 s v p a).fs v p a =
          ⟨.error .versionAlreadyExists, (download env1 s v p a).fs, [.readDir godir]⟩) := by
  have key : ∀ (t : FS) (vs : List String), versionList t = .ok vs → v ∈ vs →
      download env t v p a = ⟨.error .versionAlreadyExists, t, [.readDir godir]⟩ := by
    intro t vs hl hv
    rw [download_supported env t v p a hp ha, hl]
    simp only [(searchStrings_iff _ _).2 hv, if_true]
  refine ⟨fun vs hl hv => ⟨key s vs hl hv, fun url => ?_⟩, fun vs1 hl hv => key _ vs1 hl hv,
    fun es c data hroot hslash hv hnew hget hext => ?_⟩
  · rw [key s vs hl hv]
    simp
  · obtain ⟨root, o⟩ := s
    simp only at hroot
    subst hroot
    obtain ⟨h1, h2⟩ := download_installs env1 es o v p a c data hp ha hslash hv hnew hget hext
    refine ⟨h1, key _ _ (by rw [h2]; exact versionList_some _ _) ?_⟩
    apply mem_versionsOf_of_dir _ v c
    rw [lookupIn_insertEntry _ _ _ hnew, if_pos rfl]

/-- Witness of C6 (amended): `1.21.0` downloaded twice into an empty install
root. -/
theorem download_existing_witness :
    "darwin" ∈ availablePlatforms ∧ "arm64" ∈ availableArch ∧
      versionList (download goodEnv emptyRoot "1.21.0" "darwin" "arm64").fs = .ok ["1.21.0"] ∧
      download goodEnv (download goodEnv emptyRoot "1.21.0" "darwin" "arm64").fs
          "1.21.0" "darwin" "arm64" =
        ⟨.error .versionAlreadyExists,
          (download goodEnv emptyRoot "1.21.0" "darwin" "arm64").fs, [.readDir godir]⟩ :=
  ⟨by decide, by decide, by decide,
    (download_existing goodEnv goodEnv emptyRoot "1.21.0" "darwin" "arm64"
      (by decide) (by decide)).2.1 ["1.21.0"] (by decide) (by decide)⟩

/-- C6 as stated fails when the first call leaves `v` unlisted.  A first call
that returns success without installing (the archive has no top-level `go`) is
followed by a second that fetches again and returns success; a first call whose
fetch fails is followed by a second that fetches again and fails the same
way.  Neither second call gives the already-exists message. -/
theorem download_existing_counterexample :
    ((download noGoDirEnv emptyRoot "1.21.0" "darwin" "arm64").result = .ok () ∧
        (download noGoDirEnv (download noGoDirEnv emptyRoot "1.21.0" "darwin" "arm64").fs
          "1.21.0" "darwin" "arm64").result = .ok () ∧
        Call.httpGet "https://go.dev/dl/go1.21.0.darwin-arm64.tar.gz" ∈
          (download noGoDirEnv (download noGoDirEnv emptyRoot "1.21.0" "darwin" "arm64").fs
            "1.21.0" "darwin" "arm64").calls)
      ∧ ((download failingFetchEnv emptyRoot "1.21.0" "darwin" "arm64").result =
          .error .failedToGetTarball ∧
        (download failingFetchEnv
          (download failingFetchEnv emptyRoot "1.21.0" "darwin" "arm64").fs
          "1.21.0" "darwin" "arm64").result = .error .failedToGetTarball ∧
        Call.httpGet "https://go.dev/dl/go1.21.0.darwin-arm64.tar.gz" ∈
          (download failingFetchEnv
            (download failingFetchEnv emptyRoot "1.21.0" "darwin" "arm64").fs
            "1.21.0" "darwin" "arm64").calls) := by
  decide

/-- C2 (amended): on an install root whose directories other than `active`
are all named `go<version>`, and for versions handed to `download` that are
single path components, the predicate "the active link is absent, or it points
to a directory `<install root>/go<a>` that exists, with `a` listed" is kept by
each of `download`, `setVersion` and `deleteVersion`, whether it succeeds or
fails, and so is the shape of the install root; hence after any sequence of
such operations from an empty install root the predicate holds. -/
theorem lifecycle_invariant (s : FS) (op : Op) (o : List String) (ops : List Op)
    (hc : Conforming s) (hi : ActiveLinkOK s) (hok : op.versionOK)
    (hops : ∀ x ∈ ops, x.versionOK) :
    (Conforming (op.run s).fs ∧ ActiveLinkOK (op.run s).fs)
      ∧ (Conforming (runAll ⟨some [], o⟩ ops) ∧ ActiveLinkOK (runAll ⟨some [], o⟩ ops)) :=
  ⟨step_preserves s op hc hok hi,
    runAll_preserves ops _ (empty_root_sound o).1 (empty_root_sound o).2 hops⟩

/-- Witness of C2 (amended): the switch from `1.21.0` to `1.22.0`, and the
scenario of the specification run from the empty install root, which ends with
`1.22.0` active and alone. -/
theorem lifecycle_invariant_witness :
    Conforming twoVersions ∧ ActiveLinkOK twoVersions ∧
      ActiveLinkOK (setVersion goodEnv twoVersions "1.22.0").fs ∧
      ActiveLinkOK (runAll emptyRoot scenario) ∧
      getActiveVersion (runAll emptyRoot scenario) = .ok "1.22.0" ∧
      versionList (runAll emptyRoot scenario) = .ok ["1.22.0"] := by
  have hc : Conforming twoVersions := conforming_of_listing _ _ (by decide) (by decide)
  have hi : ActiveLinkOK twoVersions :=
    Or.inr ⟨"1.21.0", ["bin/go"], by decide, by decide, ["1.21.0", "1.22.0"], by decide,
      by decide⟩
  have hops : ∀ x ∈ scenario, x.versionOK := by
    intro x hx
    simp only [scenario, List.mem_cons, List.mem_singleton, List.not_mem_nil, or_false] at hx
    rcases hx with h | h | h | h | h | h <;> subst h <;>
      first
        | trivial
        | (show '/' ∉ String.data _; decide)
  have h := lifecycle_invariant twoVersions (.set goodEnv "1.22.0") [] scenario hc hi trivial hops
  exact ⟨hc, hi, h.1.2, h.2.2, by decide, by decide⟩

/-- C2 as stated fails on an install root outside that shape: with a
directory `bin` next to a regular file `gobin` and no link, the predicate
holds; `setVersion "bin"` finds `bin` listed and `gobin` present, and leaves
the link pointing to `gobin`, which is not a directory. -/
theorem lifecycle_invariant_counterexample :
    ActiveLinkOK binAndFile ∧ (setVersion goodEnv binAndFile "bin").result = .ok () ∧
      ¬ ActiveLinkOK (setVersion goodEnv binAndFile "bin").fs := by
  refine ⟨Or.inl (by decide), by decide, ?_⟩
  have hr : osReadlink (setVersion goodEnv binAndFile "bin").fs goSymLink =
      some "/usr/local/go/gobin" := by decide
  have hl : (setVersion goodEnv binAndFile "bin").fs.lookup "gobin" = some .file := by decide
  rintro (h | ⟨b, c, h1, h2, _⟩)
  · rw [hr] at h
    exact Option.noConfusion h
  · rw [hr] at h1
    have hb : b = "bin" := by
      have h3 := congrArg String.data (Option.some.inj h1)
      have h4 : b.data = "bin".data := by
        simpa [String.data_append, godir] using h3.symm
      exact String.ext h4
    rw [hb] at h2
    have : ("go" ++ "bin" : String) = "gobin" := by decide
    rw [this, hl] at h2
    simp at h2

end Vgo
